import Mathlib

/-!
Shallow embedding of the memory-allocation engine
(`memory_allocation_engine.py`): the block-list data model, the frame
table, and the allocate/deallocate operations for the paging and
segmentation strategies, together with the analysis predicates and
theorems about them.  Wall-clock timestamps and free-form event detail
strings are dropped; everything else follows the source line by line.
-/

namespace MemAlloc

/-- Mirrors `AllocationMethod` in the source. -/
inductive AllocationMethod where
  | paging
  | segmentation
deriving DecidableEq, Repr

/-- Mirrors `MemoryBlock`: a contiguous range with an optional owner
(`process_id = none` means the block is free). -/
structure MemoryBlock where
  start : Nat
  size : Nat
  process_id : Option Nat
deriving DecidableEq, Repr

/-- Mirrors the `end` property: `start + size - 1`, computed over the
integers exactly as Python does (no truncation at zero). -/
def MemoryBlock.endAddr (b : MemoryBlock) : Int :=
  (b.start : Int) + (b.size : Int) - 1

/-- Mirrors the `is_free` property. -/
def MemoryBlock.is_free (b : MemoryBlock) : Bool :=
  b.process_id.isNone

/-- Mirrors `Page`. -/
structure Page where
  page_id : Nat
  frame_id : Option Nat
deriving DecidableEq, Repr

/-- Mirrors `Process` (timestamps dropped). -/
structure Process where
  process_id : Nat
  size : Nat
  pages : List Page
  segments : List MemoryBlock
deriving DecidableEq, Repr

/-- Mirrors `MemoryEvent` (timestamp and detail text dropped; the claims
only speak about the event kind and subject process). -/
structure MemoryEvent where
  event_type : String
  process_id : Nat
deriving DecidableEq, Repr

/-- Mirrors the mutable state of `MemoryManager`.  The Python `dict` of
processes is modelled as an insertion-ordered association list, and the
float `external_fragmentation` as a rational number. -/
structure MemoryManager where
  total_memory_size : Nat
  page_size : Nat
  total_frames : Nat
  memory_blocks : List MemoryBlock
  page_table : List (Option Nat)
  processes : List (Nat × Process)
  events : List MemoryEvent
  page_faults : Nat
  external_fragmentation : ℚ
  internal_fragmentation : Nat
deriving DecidableEq, Repr

/-- Mirrors `MemoryManager.__init__`: note that the source performs no
validation of the configuration whatsoever. -/
def MemoryManager.init (total_memory_size : Nat) (page_size : Nat) : MemoryManager :=
  { total_memory_size := total_memory_size
    page_size := page_size
    total_frames := total_memory_size / page_size
    memory_blocks := [⟨0, total_memory_size, none⟩]
    page_table := List.replicate (total_memory_size / page_size) none
    processes := []
    events := []
    page_faults := 0
    external_fragmentation := 0
    internal_fragmentation := 0 }

/-- Mirrors `log_event`. -/
def log_event (s : MemoryManager) (event_type : String) (process_id : Nat) : MemoryManager :=
  { s with events := s.events ++ [⟨event_type, process_id⟩] }

/-- Dictionary lookup on the association list of processes
(`process_id in self.processes` / `self.processes[process_id]`). -/
def plookup (ps : List (Nat × Process)) (pid : Nat) : Option Process :=
  match ps with
  | [] => none
  | e :: rest => if e.1 = pid then some e.2 else plookup rest pid

/-- Replacing the value stored under a key, modelling Python's in-place
mutation of the `Process` object held in the dictionary. -/
def set_process (ps : List (Nat × Process)) (pid : Nat) (p : Process) : List (Nat × Process) :=
  ps.map (fun e => if e.1 = pid then (pid, p) else e)

/-- Mirrors `del self.processes[process_id]`. -/
def erase_process (ps : List (Nat × Process)) (pid : Nat) : List (Nat × Process) :=
  ps.filter (fun e => e.1 != pid)

/-- Helper for `free_frames`: mirrors
`[i for i, p in enumerate(self.page_table) if p is None]`, carrying the
running index. -/
def free_frames_from (i : Nat) : List (Option Nat) → List Nat
  | [] => []
  | none :: rest => i :: free_frames_from (i + 1) rest
  | some _ :: rest => free_frames_from (i + 1) rest

/-- The list of free frame indices, in ascending order. -/
def free_frames (table : List (Option Nat)) : List Nat :=
  free_frames_from 0 table

/-- Mirrors `_split_block_for_page`: replace the matched block by an
optional free fore-part, the allocated page-sized block, and an optional
free aft-part. -/
def split_block_for_page (b : MemoryBlock) (frame_start page_size pid : Nat) :
    List MemoryBlock :=
  (if b.start < frame_start then [(⟨b.start, frame_start - b.start, none⟩ : MemoryBlock)] else [])
  ++ (⟨frame_start, page_size, some pid⟩ : MemoryBlock)
  :: (if ((frame_start : Int) + page_size - 1) < b.endAddr then
        [(⟨frame_start + page_size,
           (b.endAddr - ((frame_start : Int) + page_size) + 1).toNat, none⟩ : MemoryBlock)]
      else [])

/-- Mirrors the per-frame search loop inside `_allocate_paging`: find the
first free block fully containing the frame's address span and split it;
if no block matches, the list is unchanged. -/
def place_page (frame_start page_size pid : Nat) : List MemoryBlock → List MemoryBlock
  | [] => []
  | b :: bs =>
    if b.is_free ∧ b.start ≤ frame_start ∧ ((frame_start : Int) + page_size - 1) ≤ b.endAddr then
      split_block_for_page b frame_start page_size pid ++ bs
    else
      b :: place_page frame_start page_size pid bs

/-- Mirrors the allocation loop of `_allocate_paging`: walk the chosen
frames, building the page list and updating the frame table and the
block list.  `i` is the running page index. -/
def assign_frames (page_size pid : Nat) :
    List Nat → Nat → List (Option Nat) → List MemoryBlock →
    List Page × List (Option Nat) × List MemoryBlock
  | [], _, table, blocks => ([], table, blocks)
  | f :: fs, i, table, blocks =>
    let table' := table.set f (some pid)
    let blocks' := place_page (f * page_size) page_size pid blocks
    let r := assign_frames page_size pid fs (i + 1) table' blocks'
    (⟨i, some f⟩ :: r.1, r.2.1, r.2.2)

/-- Mirrors `_allocate_paging`. -/
def allocate_paging (s : MemoryManager) (proc : Process) : Bool × MemoryManager :=
  let num_pages_needed := (proc.size + s.page_size - 1) / s.page_size
  let ff := free_frames s.page_table
  if ff.length < num_pages_needed then
    (false, { log_event s "PAGE_FAULT" proc.process_id with page_faults := s.page_faults + 1 })
  else
    let r := assign_frames s.page_size proc.process_id (ff.take num_pages_needed) 0
               s.page_table s.memory_blocks
    let proc' := { proc with pages := r.1 }
    let last_page_size := proc.size % s.page_size
    let ifrag := if 0 < last_page_size then
        s.internal_fragmentation + (s.page_size - last_page_size)
      else s.internal_fragmentation
    let s' := { s with
      page_table := r.2.1
      memory_blocks := r.2.2
      processes := set_process s.processes proc.process_id proc'
      internal_fragmentation := ifrag }
    (true, log_event s' "ALLOCATION" proc.process_id)

/-- Mirrors the first-fit search and split of `_allocate_segmentation` on
the block list: returns the created segment and the updated list, or
`none` when no free block is large enough. -/
def seg_place (pid size : Nat) : List MemoryBlock → Option (MemoryBlock × List MemoryBlock)
  | [] => none
  | b :: bs =>
    if b.is_free ∧ size ≤ b.size then
      let segment : MemoryBlock := ⟨b.start, size, some pid⟩
      if size < b.size then
        some (segment, segment :: (⟨b.start + size, b.size - size, none⟩ : MemoryBlock) :: bs)
      else
        some (segment, segment :: bs)
    else
      (seg_place pid size bs).map (fun r => (r.1, b :: r.2))

/-- The total size of all free blocks (`total_free` in
`_calculate_external_fragmentation`). -/
def total_free_size (bs : List MemoryBlock) : Nat :=
  ((bs.filter (fun b => b.is_free)).map (fun b => b.size)).sum

/-- The largest free block size, `0` when there is none (`largest_free`). -/
def largest_free_size (bs : List MemoryBlock) : Nat :=
  ((bs.filter (fun b => b.is_free)).map (fun b => b.size)).foldr Nat.max 0

/-- Mirrors `_calculate_external_fragmentation`. -/
def calculate_external_fragmentation (s : MemoryManager) : MemoryManager :=
  let total_free := total_free_size s.memory_blocks
  let largest_free := largest_free_size s.memory_blocks
  if 0 < total_free then
    { s with external_fragmentation := 1 - (largest_free : ℚ) / (total_free : ℚ) }
  else
    { s with external_fragmentation := 0 }

/-- Mirrors `_allocate_segmentation`. -/
def allocate_segmentation (s : MemoryManager) (proc : Process) : Bool × MemoryManager :=
  match seg_place proc.process_id proc.size s.memory_blocks with
  | none =>
    (false, calculate_external_fragmentation (log_event s "ERROR" proc.process_id))
  | some r =>
    let proc' := { proc with segments := proc.segments ++ [r.1] }
    let s' := { s with
      memory_blocks := r.2
      processes := set_process s.processes proc.process_id proc' }
    (true, log_event s' "ALLOCATION" proc.process_id)

/-- Mirrors `allocate_process`: note that the fresh process record is
inserted into the process map before the strategy-specific allocator
runs, so it stays there even when that allocator fails. -/
def allocate_process (s : MemoryManager) (process_id size : Nat)
    (method : AllocationMethod) : Bool × MemoryManager :=
  if (plookup s.processes process_id).isSome then
    (false, log_event s "ERROR" process_id)
  else
    let proc : Process := ⟨process_id, size, [], []⟩
    let s₁ := { s with processes := s.processes ++ [(process_id, proc)] }
    match method with
    | .paging => allocate_paging s₁ proc
    | .segmentation => allocate_segmentation s₁ proc

/-- Work loop of `_merge_adjacent_free_blocks`, structurally recursive
on a fuel argument so it computes by kernel reduction: each loop
iteration shortens the list by exactly one element, so a fuel equal to
the initial length never runs out (the fuel-0 case is unreachable and
returns the list unchanged). -/
def merge_go : Nat → List MemoryBlock → List MemoryBlock
  | 0, l => l
  | _ + 1, [] => []
  | _ + 1, [b] => [b]
  | fuel + 1, b₁ :: b₂ :: bs =>
    if b₁.is_free ∧ b₂.is_free then
      merge_go fuel ((⟨b₁.start, b₁.size + b₂.size, none⟩ : MemoryBlock) :: bs)
    else
      b₁ :: merge_go fuel (b₂ :: bs)

/-- Mirrors `_merge_adjacent_free_blocks`: the index-based while loop is
exactly the recursion of `merge_go` (after a merge the cursor stays put,
otherwise it advances). -/
def merge_adjacent_free_blocks (l : List MemoryBlock) : List MemoryBlock :=
  merge_go l.length l

/-- Mirrors `_deallocate_paging`. -/
def deallocate_paging (s : MemoryManager) (proc : Process) : MemoryManager :=
  let table' := proc.pages.foldl (fun t pg =>
    match pg.frame_id with
    | some f => t.set f none
    | none => t) s.page_table
  let blocks' := s.memory_blocks.map (fun b =>
    if b.process_id = some proc.process_id then (⟨b.start, b.size, none⟩ : MemoryBlock) else b)
  { s with page_table := table', memory_blocks := merge_adjacent_free_blocks blocks' }

/-- The inner search of `_deallocate_segmentation`: free the first block
whose start and owner match the segment, then stop. -/
def free_first_match (pid seg_start : Nat) : List MemoryBlock → List MemoryBlock
  | [] => []
  | b :: bs =>
    if b.start = seg_start ∧ b.process_id = some pid then
      (⟨b.start, b.size, none⟩ : MemoryBlock) :: bs
    else
      b :: free_first_match pid seg_start bs

/-- Mirrors `_deallocate_segmentation`. -/
def deallocate_segmentation (s : MemoryManager) (proc : Process) : MemoryManager :=
  let blocks' := proc.segments.foldl
    (fun bl sg => free_first_match proc.process_id sg.start bl) s.memory_blocks
  { s with memory_blocks := merge_adjacent_free_blocks blocks' }

/-- Mirrors `deallocate_process`. -/
def deallocate_process (s : MemoryManager) (process_id : Nat) : Bool × MemoryManager :=
  match plookup s.processes process_id with
  | none => (false, log_event s "ERROR" process_id)
  | some proc =>
    let s₁ := match proc.pages, proc.segments with
      | [], [] => s
      | [], _ :: _ => deallocate_segmentation s proc
      | _ :: _, _ => deallocate_paging s proc
    let s₂ := { s₁ with processes := erase_process s₁.processes process_id }
    (true, log_event s₂ "DEALLOCATION" process_id)

/-- A single engine call, for reasoning about call histories. -/
inductive Cmd where
  | alloc (process_id size : Nat) (method : AllocationMethod)
  | dealloc (process_id : Nat)
deriving DecidableEq, Repr

/-- One call of the engine (the returned flag discarded). -/
def step (s : MemoryManager) : Cmd → MemoryManager
  | .alloc pid sz m => (allocate_process s pid sz m).2
  | .dealloc pid => (deallocate_process s pid).2

/-- Running a history of calls. -/
def run (s : MemoryManager) (cs : List Cmd) : MemoryManager :=
  cs.foldl step s

/-! Analysis definitions: the spec-level predicates the claims are
stated with. -/

/-- The block list starting at offset `o` tiles the address space up to
`n`: each block starts where the previous one ended and the last one
ends at `n` (contiguity, ordering, exact coverage, no overlap). -/
def tilesB : Nat → List MemoryBlock → Nat → Bool
  | o, [], n => o == n
  | o, b :: bs, n => (b.start == o) && tilesB (o + b.size) bs n

/-- No two adjacent blocks are both free. -/
def no_adjacent_free : List MemoryBlock → Bool
  | b₁ :: b₂ :: bs => (!(b₁.is_free && b₂.is_free)) && no_adjacent_free (b₂ :: bs)
  | _ => true

/-- Every block has positive length. -/
def all_positive (bs : List MemoryBlock) : Bool :=
  bs.all (fun b => decide (0 < b.size))

/-- The Range-Model invariant of the spec: the ordered block list has
positive lengths, is contiguous and non-overlapping, covers exactly
`[0, total)`, and has no two adjacent free blocks. -/
def range_invariant (total : Nat) (bs : List MemoryBlock) : Bool :=
  tilesB 0 bs total && all_positive bs && no_adjacent_free bs

/-- The owner recorded by the first block whose range contains address
`a` (`none` when no block covers `a`; `some none` means covered and
free). Under `tilesB` the covering block is unique. -/
def owner_at (bs : List MemoryBlock) (a : Nat) : Option (Option Nat) :=
  match bs with
  | [] => none
  | b :: rest =>
    if b.start ≤ a ∧ a < b.start + b.size then some b.process_id else owner_at rest a

/-- Frame/range agreement: every address in frame `f`'s page-aligned
span is covered by a block whose owner is exactly the frame-table entry
of `f` (owned by `p` iff the span lies in `p`-owned ranges, unowned iff
it lies in free ranges). -/
def frame_agrees (s : MemoryManager) : Prop :=
  ∀ f < s.total_frames, ∀ a < (f + 1) * s.page_size,
    f * s.page_size ≤ a →
      owner_at s.memory_blocks a = some (s.page_table.getD f none)

/-- A command only uses the paging strategy. -/
def Cmd.paging_only : Cmd → Bool
  | .alloc _ _ m => m == .paging
  | .dealloc _ => true

/-- An allocation command requests a positive size (deallocations are
unconstrained). -/
def Cmd.pos_size : Cmd → Bool
  | .alloc _ sz _ => decide (0 < sz)
  | .dealloc _ => true

/-- The command is a segmentation allocation that fails with
`NoSuitableBlock` on state `s`: the id is fresh but no free block is
large enough. -/
def seg_alloc_fails (s : MemoryManager) : Cmd → Bool
  | .alloc pid sz m =>
    (m == .segmentation) && (plookup s.processes pid == none) &&
      s.memory_blocks.all (fun b => !(b.is_free && decide (sz ≤ b.size)))
  | .dealloc _ => false

/-- Ownership bookkeeping consistency between the process map, the frame
table and the block list (these properties hold in every state the
engine can reach; they are the hypotheses under which deallocation
frees exactly what the process owns):
frames marked with a live process id are exactly the frames of its
pages, frame-table entries always name live processes, and a process's
owned blocks are: none when it has neither pages nor segments, and
exactly its single segment when it is a segmentation process. -/
def consistent (s : MemoryManager) : Prop :=
  (∀ e ∈ s.processes,
     e.2.process_id = e.1 ∧
     (∀ f < s.page_table.length,
        (s.page_table.getD f none = some e.1 ↔ ∃ pg ∈ e.2.pages, pg.frame_id = some f)) ∧
     (e.2.pages = [] → e.2.segments = [] →
        ∀ b ∈ s.memory_blocks, b.process_id ≠ some e.1) ∧
     (∀ sg ∈ e.2.segments,
        s.memory_blocks.filter (fun b => b.process_id == some e.1)
          = [⟨sg.start, sg.size, some e.1⟩]) ∧
     (e.2.pages = [] ∨ e.2.segments = []) ∧
     e.2.segments.length ≤ 1) ∧
  (∀ o ∈ s.page_table, ∀ pid, o = some pid → (plookup s.processes pid).isSome)

instance (s : MemoryManager) : Decidable (frame_agrees s) := by
  unfold frame_agrees; exact inferInstance

instance (s : MemoryManager) : Decidable (consistent s) := by
  unfold consistent; exact inferInstance

/-- The bookkeeping invariant maintained along paging-only call
histories: the frame table has exactly `total_frames` entries whose
page-aligned spans tile `[0, total_memory_size)` exactly, the block
list satisfies the range invariant and agrees pointwise with the frame
table, every live process is a paging-style record (no segments) whose
page frames are exactly the frames the table assigns to it, and every
assigned frame names a live process. -/
def paging_inv (s : MemoryManager) : Prop :=
  s.page_table.length = s.total_frames ∧
  s.total_frames * s.page_size = s.total_memory_size ∧
  range_invariant s.total_memory_size s.memory_blocks = true ∧
  (∀ g, g < s.page_table.length → ∀ a, g * s.page_size ≤ a →
     a < (g + 1) * s.page_size →
     owner_at s.memory_blocks a = some (s.page_table.getD g none)) ∧
  (∀ e ∈ s.processes,
     e.2.process_id = e.1 ∧ e.2.segments = [] ∧
     (∀ f, f < s.page_table.length →
        (s.page_table.getD f none = some e.1 ↔ ∃ pg ∈ e.2.pages, pg.frame_id = some f))) ∧
  (∀ o ∈ s.page_table, ∀ q, o = some q → (plookup s.processes q).isSome = true)

/-! Helper lemmas about the process map. -/

theorem plookup_eq_none_iff {l : List (Nat × Process)} {pid : Nat} :
    plookup l pid = none ↔ ∀ e ∈ l, e.1 ≠ pid := by
  induction l with
  | nil => simp [plookup]
  | cons e rest ih =>
    by_cases h : e.1 = pid
    · simp [plookup, h]
    · simp [plookup, h, ih]

theorem plookup_append_left {l₁ l₂ : List (Nat × Process)} {pid : Nat}
    (h : plookup l₁ pid = none) :
    plookup (l₁ ++ l₂) pid = plookup l₂ pid := by
  induction l₁ with
  | nil => simp
  | cons e rest ih =>
    by_cases he : e.1 = pid
    · simp [plookup, he] at h
    · simp [plookup, he] at h ⊢
      exact ih h

theorem plookup_append_self {l : List (Nat × Process)} {pid : Nat} {p : Process}
    (h : plookup l pid = none) :
    plookup (l ++ [(pid, p)]) pid = some p := by
  rw [plookup_append_left h]; simp [plookup]

theorem set_process_of_absent {l : List (Nat × Process)} {pid : Nat} {q : Process}
    (h : plookup l pid = none) :
    set_process l pid q = l := by
  induction l with
  | nil => rfl
  | cons e rest ih =>
    by_cases he : e.1 = pid
    · simp [plookup, he] at h
    · simp [plookup, he] at h
      simp [set_process, he] at ih ⊢
      exact ih h

theorem set_process_append_fresh {l : List (Nat × Process)} {pid : Nat} {p q : Process}
    (h : plookup l pid = none) :
    set_process (l ++ [(pid, p)]) pid q = l ++ [(pid, q)] := by
  have : set_process (l ++ [(pid, p)]) pid q
      = set_process l pid q ++ set_process [(pid, p)] pid q := by
    simp [set_process]
  rw [this, set_process_of_absent h]
  simp [set_process]

theorem erase_process_of_absent {l : List (Nat × Process)} {pid : Nat}
    (h : plookup l pid = none) :
    erase_process l pid = l := by
  have hall := plookup_eq_none_iff.mp h
  unfold erase_process
  rw [List.filter_eq_self]
  intro e he
  simpa using hall e he

theorem plookup_erase_self (l : List (Nat × Process)) (pid : Nat) :
    plookup (erase_process l pid) pid = none := by
  rw [plookup_eq_none_iff]
  intro e he
  have := List.of_mem_filter he
  simpa using this

theorem plookup_erase_ne (l : List (Nat × Process)) {pid q : Nat} (h : q ≠ pid) :
    plookup (erase_process l pid) q = plookup l q := by
  induction l with
  | nil => rfl
  | cons e rest ih =>
    unfold erase_process at ih ⊢
    by_cases he : e.1 = pid
    · have hne : ¬ e.1 = q := by rw [he]; exact fun hh => h hh.symm
      have hne' : ¬ pid = q := fun hh => h hh.symm
      simp [List.filter_cons, he, plookup, hne, hne', ih]
    · have hkeep : (e.1 != pid) = true := by simpa using he
      simp only [List.filter_cons, hkeep, if_true]
      by_cases hq : e.1 = q <;> simp [plookup, hq, ih]

/-! Helper lemmas about the failure paths of `allocate_process`. -/

theorem seg_place_eq_none_iff {pid size : Nat} {l : List MemoryBlock} :
    seg_place pid size l = none ↔ ∀ b ∈ l, ¬(b.is_free = true ∧ size ≤ b.size) := by
  induction l with
  | nil => simp [seg_place]
  | cons b bs ih =>
    by_cases hb : b.is_free = true ∧ size ≤ b.size
    · simp only [seg_place, if_pos hb]
      constructor
      · intro h
        exfalso
        by_cases hlt : size < b.size <;> simp [hlt] at h
      · intro h; exact absurd hb (by simpa using h b (by simp))
    · simp only [seg_place, if_neg hb, Option.map_eq_none', List.mem_cons]
      constructor
      · intro h c hc
        rcases hc with rfl | hc
        · exact hb
        · exact ih.mp h c hc
      · intro h
        exact ih.mpr fun c hc => h c (Or.inr hc)

theorem calc_ext_frag_fields (s : MemoryManager) :
    (calculate_external_fragmentation s).memory_blocks = s.memory_blocks ∧
    (calculate_external_fragmentation s).page_table = s.page_table ∧
    (calculate_external_fragmentation s).processes = s.processes ∧
    (calculate_external_fragmentation s).events = s.events ∧
    (calculate_external_fragmentation s).page_faults = s.page_faults ∧
    (calculate_external_fragmentation s).internal_fragmentation = s.internal_fragmentation := by
  by_cases h : 0 < total_free_size s.memory_blocks <;>
    simp [calculate_external_fragmentation, h]

theorem alloc_fail_state {s : MemoryManager} {pid size : Nat} {m : AllocationMethod}
    (h : plookup s.processes pid = none)
    (hf : (allocate_process s pid size m).1 = false) :
    (allocate_process s pid size m).2.memory_blocks = s.memory_blocks ∧
    (allocate_process s pid size m).2.page_table = s.page_table ∧
    (allocate_process s pid size m).2.processes = s.processes ++ [(pid, ⟨pid, size, [], []⟩)] ∧
    (allocate_process s pid size m).2.internal_fragmentation = s.internal_fragmentation ∧
    (m = AllocationMethod.paging →
       (allocate_process s pid size m).2.events = s.events ++ [⟨"PAGE_FAULT", pid⟩] ∧
       (allocate_process s pid size m).2.page_faults = s.page_faults + 1 ∧
       (allocate_process s pid size m).2.external_fragmentation = s.external_fragmentation) ∧
    (m = AllocationMethod.segmentation →
       (allocate_process s pid size m).2.events = s.events ++ [⟨"ERROR", pid⟩] ∧
       (allocate_process s pid size m).2.page_faults = s.page_faults) := by
  cases m with
  | paging =>
    simp only [allocate_process, h, Option.isSome_none, Bool.false_eq_true, if_false] at hf ⊢
    unfold allocate_paging at hf ⊢
    by_cases hc : (free_frames s.page_table).length < (size + s.page_size - 1) / s.page_size
    · simp only [if_pos hc]
      simp [log_event]
    · simp [if_neg hc] at hf
  | segmentation =>
    simp only [allocate_process, h, Option.isSome_none, Bool.false_eq_true, if_false] at hf ⊢
    unfold allocate_segmentation at hf ⊢
    cases hsp : seg_place pid size s.memory_blocks with
    | none =>
      simp only [hsp]
      have hfields := calc_ext_frag_fields (log_event { s with
        processes := s.processes ++ [(pid, ⟨pid, size, [], []⟩)] } "ERROR" pid)
      simp [log_event] at hfields
      simp [hfields, log_event]
    | some r => simp [hsp] at hf

theorem erase_process_append (l₁ l₂ : List (Nat × Process)) (pid : Nat) :
    erase_process (l₁ ++ l₂) pid = erase_process l₁ pid ++ erase_process l₂ pid := by
  simp [erase_process, List.filter_append]

/-! Claim theorems. -/

/-- C7 (counterexample): the spec claims a non-divisible
`total_memory_size`/`page_size` pair raises `InvalidConfiguration`
before any engine state is created; in the code construction performs no
validation at all — `MemoryManager(10, 4)` builds a complete engine
state (block list, frame table, process map, event log). -/
theorem C7_counterexample :
    (MemoryManager.init 10 4).memory_blocks = [⟨0, 10, none⟩] ∧
    (MemoryManager.init 10 4).total_frames = 2 ∧
    (MemoryManager.init 10 4).page_table = [none, none] ∧
    (MemoryManager.init 10 4).processes = [] ∧
    (MemoryManager.init 10 4).events = [] := by
  decide

/-- C7 (amended): construction never validates the configuration and
never fails; for every configuration it produces one free range spanning
`[0, total_memory_size)` and `total_memory_size / page_size` (floor
division) unowned frames, with empty process map, empty event log and
zeroed counters; when the divisibility condition does hold, the frames
exactly tile memory. -/
theorem C7_construction (total ps : Nat) :
    (MemoryManager.init total ps).memory_blocks = [⟨0, total, none⟩] ∧
    (MemoryManager.init total ps).total_frames = total / ps ∧
    (MemoryManager.init total ps).page_table = List.replicate (total / ps) none ∧
    (MemoryManager.init total ps).processes = [] ∧
    (MemoryManager.init total ps).events = [] ∧
    (MemoryManager.init total ps).page_faults = 0 ∧
    (MemoryManager.init total ps).internal_fragmentation = 0 ∧
    (MemoryManager.init total ps).external_fragmentation = 0 ∧
    (total % ps = 0 → (MemoryManager.init total ps).total_frames * ps = total) := by
  refine ⟨rfl, rfl, rfl, rfl, rfl, rfl, rfl, rfl, fun h => ?_⟩
  exact Nat.div_mul_cancel (Nat.dvd_of_mod_eq_zero h)

/-- C7 (witness for the amended theorem's conditional part). -/
theorem C7_witness :
    (MemoryManager.init 8 4).total_frames * 4 = 8 :=
  (C7_construction 8 4).2.2.2.2.2.2.2.2 (by decide)

/-- C1 (counterexample): the claim says a failed allocation leaves the
set of live processes identical; but a paging allocation on a fresh id
that fails with `InsufficientFrames` still registers the process. -/
theorem C1_counterexample :
    (allocate_process (MemoryManager.init 4 4) 1 8 .paging).1 = false ∧
    (allocate_process (MemoryManager.init 4 4) 1 8 .paging).2.processes
      ≠ (MemoryManager.init 4 4).processes := by
  decide

/-- C1 (amended): every failed allocate/deallocate leaves the block list
and the frame table unchanged.  The live-process set is unchanged for
`DuplicateProcess` and `UnknownProcess` failures; for `InsufficientFrames`
and `NoSuitableBlock` failures the failing id is appended to the live
process set (with no pages or segments).  Besides the appended ERROR or
PAGE_FAULT event, a paging failure increments the page-fault counter and
a segmentation failure recomputes the external-fragmentation ratio. -/
theorem C1_failed_calls (s : MemoryManager) (pid size : Nat) (m : AllocationMethod) :
    ((plookup s.processes pid).isSome = true →
       allocate_process s pid size m = (false, log_event s "ERROR" pid)) ∧
    (plookup s.processes pid = none → (allocate_process s pid size m).1 = false →
       (allocate_process s pid size m).2.memory_blocks = s.memory_blocks ∧
       (allocate_process s pid size m).2.page_table = s.page_table ∧
       (allocate_process s pid size m).2.processes
         = s.processes ++ [(pid, ⟨pid, size, [], []⟩)] ∧
       (allocate_process s pid size m).2.internal_fragmentation = s.internal_fragmentation ∧
       (m = AllocationMethod.paging →
          (allocate_process s pid size m).2.events = s.events ++ [⟨"PAGE_FAULT", pid⟩] ∧
          (allocate_process s pid size m).2.page_faults = s.page_faults + 1 ∧
          (allocate_process s pid size m).2.external_fragmentation
            = s.external_fragmentation) ∧
       (m = AllocationMethod.segmentation →
          (allocate_process s pid size m).2.events = s.events ++ [⟨"ERROR", pid⟩] ∧
          (allocate_process s pid size m).2.page_faults = s.page_faults)) ∧
    (plookup s.processes pid = none →
       deallocate_process s pid = (false, log_event s "ERROR" pid)) := by
  refine ⟨fun h => ?_, fun h hf => alloc_fail_state h hf, fun h => ?_⟩
  · simp [allocate_process, h]
  · simp [deallocate_process, h]

/-- C1 (witness): instances of all three failure shapes. -/
theorem C1_witness :
    (allocate_process ((allocate_process (MemoryManager.init 4 4) 1 4 .paging).2) 1 3
        .segmentation
      = (false, log_event ((allocate_process (MemoryManager.init 4 4) 1 4 .paging).2)
          "ERROR" 1)) ∧
    (allocate_process (MemoryManager.init 4 4) 2 8 .paging).2.memory_blocks
      = (MemoryManager.init 4 4).memory_blocks ∧
    deallocate_process (MemoryManager.init 4 4) 9
      = (false, log_event (MemoryManager.init 4 4) "ERROR" 9) :=
  ⟨(C1_failed_calls ((allocate_process (MemoryManager.init 4 4) 1 4 .paging).2) 1 3
      .segmentation).1 (by decide),
   ((C1_failed_calls (MemoryManager.init 4 4) 2 8 .paging).2.1 (by decide) (by decide)).1,
   (C1_failed_calls (MemoryManager.init 4 4) 9 0 .paging).2.2 (by decide)⟩

/-- C9: an allocate call on a fresh id that fails (with the id fresh the
only failures are `InsufficientFrames` and `NoSuitableBlock`) leaves the
id live with no pages and no segments: a further allocate with that id
fails as a duplicate with an ERROR event, while a deallocate succeeds,
removes the record, logs DEALLOCATION, and — the process owning nothing —
changes neither the block list nor the frame table. -/
theorem C9_failed_alloc_id_live (s : MemoryManager) (pid size : Nat) (m : AllocationMethod)
    (h : plookup s.processes pid = none)
    (hf : (allocate_process s pid size m).1 = false) :
    plookup (allocate_process s pid size m).2.processes pid = some ⟨pid, size, [], []⟩ ∧
    (∀ size2 m2, allocate_process (allocate_process s pid size m).2 pid size2 m2
       = (false, log_event (allocate_process s pid size m).2 "ERROR" pid)) ∧
    (deallocate_process (allocate_process s pid size m).2 pid).1 = true ∧
    (deallocate_process (allocate_process s pid size m).2 pid).2.processes = s.processes ∧
    plookup (deallocate_process (allocate_process s pid size m).2 pid).2.processes pid
      = none ∧
    (deallocate_process (allocate_process s pid size m).2 pid).2.events
      = (allocate_process s pid size m).2.events ++ [⟨"DEALLOCATION", pid⟩] ∧
    (deallocate_process (allocate_process s pid size m).2 pid).2.memory_blocks
      = (allocate_process s pid size m).2.memory_blocks ∧
    (deallocate_process (allocate_process s pid size m).2 pid).2.page_table
      = (allocate_process s pid size m).2.page_table := by
  obtain ⟨hbl, hpt, hpr, _, _, _⟩ := alloc_fail_state h hf
  set t := (allocate_process s pid size m).2 with ht
  have hlook : plookup t.processes pid = some ⟨pid, size, [], []⟩ := by
    rw [hpr]; exact plookup_append_self h
  have herase : erase_process t.processes pid = s.processes := by
    rw [hpr, erase_process_append, erase_process_of_absent h]
    simp [erase_process]
  have hde : deallocate_process t pid
      = (true, log_event { t with processes := erase_process t.processes pid }
          "DEALLOCATION" pid) := by
    unfold deallocate_process
    rw [hlook]
  refine ⟨hlook, fun size2 m2 => ?_, ?_, ?_, ?_, ?_, ?_, ?_⟩
  · have hs2 : (plookup t.processes pid).isSome = true := by
      rw [hlook]; rfl
    unfold allocate_process
    rw [if_pos hs2]
  · rw [hde]
  · rw [hde]; simpa [log_event] using herase
  · rw [hde]; simp only [log_event]
    show plookup (erase_process t.processes pid) pid = none
    rw [herase]; exact h
  · rw [hde]; simp [log_event]
  · rw [hde]; simp [log_event]
  · rw [hde]; simp [log_event]

/-- C9 (witness): a failed segmentation allocation on a fresh engine. -/
theorem C9_witness :
    plookup (allocate_process (MemoryManager.init 4 4) 5 9 .segmentation).2.processes 5
      = some ⟨5, 9, [], []⟩ :=
  (C9_failed_alloc_id_live (MemoryManager.init 4 4) 5 9 .segmentation
    (by decide) (by decide)).1

/-- C10: allocating size 0 with the paging strategy on any fresh id
always succeeds, registers a live process with no pages (hence no
frames), leaves the block list, frame table, and internal-fragmentation
counter unchanged, and logs an ALLOCATION event — regardless of how many
frames are free. -/
theorem C10_zero_size_paging (s : MemoryManager) (pid : Nat)
    (hps : 0 < s.page_size) (h : plookup s.processes pid = none) :
    (allocate_process s pid 0 .paging).1 = true ∧
    (allocate_process s pid 0 .paging).2.memory_blocks = s.memory_blocks ∧
    (allocate_process s pid 0 .paging).2.page_table = s.page_table ∧
    (allocate_process s pid 0 .paging).2.internal_fragmentation
      = s.internal_fragmentation ∧
    plookup (allocate_process s pid 0 .paging).2.processes pid = some ⟨pid, 0, [], []⟩ ∧
    (allocate_process s pid 0 .paging).2.events = s.events ++ [⟨"ALLOCATION", pid⟩] := by
  have hnum : (0 + s.page_size - 1) / s.page_size = 0 :=
    Nat.div_eq_of_lt (by omega)
  have hset := @set_process_append_fresh s.processes pid (⟨pid, 0, [], []⟩ : Process)
    (⟨pid, 0, [], []⟩ : Process) h
  simp only [allocate_process, h, Option.isSome_none, Bool.false_eq_true, if_false,
    allocate_paging, hnum, Nat.not_lt_zero, if_false, List.take_zero, assign_frames,
    Nat.zero_mod, lt_self_iff_false, log_event]
  exact ⟨trivial, trivial, trivial, trivial,
    by rw [hset]; exact plookup_append_self h, trivial⟩

/-- C10 (witness): reallocating id 2 with size 0 succeeds even on an
engine whose single frame is occupied (zero free frames). -/
theorem C10_witness :
    (allocate_process (allocate_process (MemoryManager.init 4 4) 1 4 .paging).2 2 0
      .paging).1 = true :=
  (C10_zero_size_paging (allocate_process (MemoryManager.init 4 4) 1 4 .paging).2 2
    (by decide) (by decide)).1

/-- C8: the external-fragmentation ratio is recomputed exactly on the
`NoSuitableBlock` failure path of a segmentation allocation — where it
becomes `1 - largest_free/total_free` over the (unchanged) block list
when total free is positive and `0` otherwise — and no other engine call
changes it. -/
theorem C8_ext_frag (s : MemoryManager) (c : Cmd) :
    (seg_alloc_fails s c = true →
       (step s c).external_fragmentation =
         (if 0 < total_free_size s.memory_blocks then
            1 - (largest_free_size s.memory_blocks : ℚ) / (total_free_size s.memory_blocks : ℚ)
          else 0)) ∧
    (seg_alloc_fails s c = false →
       (step s c).external_fragmentation = s.external_fragmentation) := by
  cases c with
  | dealloc pid =>
    refine ⟨fun hfail => by simp [seg_alloc_fails] at hfail, fun _ => ?_⟩
    unfold step deallocate_process
    cases hl : plookup s.processes pid with
    | none => simp [hl, log_event]
    | some p =>
      cases hp : p.pages <;> cases hsg : p.segments <;>
        simp [hl, hp, hsg, deallocate_paging, deallocate_segmentation, log_event]
  | alloc pid sz m =>
    by_cases hl : (plookup s.processes pid).isSome = true
    · have hq : (plookup s.processes pid == none) = false := by
        cases hx : plookup s.processes pid
        · rw [hx] at hl; simp at hl
        · simp
      constructor
      · intro hfail
        simp [seg_alloc_fails, hq] at hfail
      · intro _
        simp [step, allocate_process, hl, log_event]
    · have hnone : plookup s.processes pid = none := by
        cases hx : plookup s.processes pid
        · rfl
        · rw [hx] at hl; simp at hl
      cases m with
      | paging =>
        refine ⟨fun hfail => by simp [seg_alloc_fails] at hfail, fun _ => ?_⟩
        simp only [step, allocate_process, hnone, Option.isSome_none,
          Bool.false_eq_true, if_false]
        unfold allocate_paging
        by_cases hc : (free_frames s.page_table).length
            < (sz + s.page_size - 1) / s.page_size <;>
          simp [hc, log_event]
      | segmentation =>
        have hsf : seg_alloc_fails s (Cmd.alloc pid sz .segmentation)
            = s.memory_blocks.all (fun b => !(b.is_free && decide (sz ≤ b.size))) := by
          simp [seg_alloc_fails, hnone]
        simp only [step, allocate_process, hnone, Option.isSome_none,
          Bool.false_eq_true, if_false]
        unfold allocate_segmentation
        cases hsp : seg_place pid sz s.memory_blocks with
        | none =>
          have hall : ∀ b ∈ s.memory_blocks, ¬(b.is_free = true ∧ sz ≤ b.size) :=
            seg_place_eq_none_iff.mp hsp
          constructor
          · intro _
            by_cases hfree : 0 < total_free_size s.memory_blocks <;>
              simp [hsp, log_event, calculate_external_fragmentation, hfree]
          · intro hfalse
            rw [hsf] at hfalse
            have hbool : s.memory_blocks.all
                (fun b => !(b.is_free && decide (sz ≤ b.size))) = true := by
              rw [List.all_eq_true]
              intro b hb
              have hnb := hall b hb
              cases hfree : b.is_free
              · simp
              · simp only [Bool.not_eq_true', Bool.and_eq_false_iff]
                right
                by_cases hsz : sz ≤ b.size
                · exact absurd ⟨hfree, hsz⟩ hnb
                · simp [hsz]
            rw [hbool] at hfalse
            cases hfalse
        | some r =>
          have : ¬ (∀ b ∈ s.memory_blocks, ¬(b.is_free = true ∧ sz ≤ b.size)) := by
            intro hall
            rw [seg_place_eq_none_iff.mpr hall] at hsp
            cases hsp
          constructor
          · intro hfail
            rw [hsf, List.all_eq_true] at hfail
            refine absurd ?_ this
            intro b hb
            have := hfail b hb
            simp only [Bool.not_eq_true', Bool.and_eq_false_iff] at this
            rcases this with h1 | h1
            · intro hx; rw [hx.1] at h1; cases h1
            · intro hx; exact absurd (decide_eq_true hx.2) (by simp [h1])
          · intro _
            simp [hsp, log_event]

/-- C8 (witness): a failing oversized segmentation request recomputes
the ratio; a paging allocation leaves it untouched. -/
theorem C8_witness :
    (step (MemoryManager.init 8 4) (Cmd.alloc 1 9 .segmentation)).external_fragmentation
      = (if 0 < total_free_size (MemoryManager.init 8 4).memory_blocks then
           1 - ((largest_free_size (MemoryManager.init 8 4).memory_blocks : ℚ)
               / (total_free_size (MemoryManager.init 8 4).memory_blocks : ℚ))
         else 0) ∧
    (step (MemoryManager.init 8 4) (Cmd.alloc 1 4 .paging)).external_fragmentation
      = (MemoryManager.init 8 4).external_fragmentation :=
  ⟨(C8_ext_frag (MemoryManager.init 8 4) (Cmd.alloc 1 9 .segmentation)).1 (by decide),
   (C8_ext_frag (MemoryManager.init 8 4) (Cmd.alloc 1 4 .paging)).2 (by decide)⟩

theorem seg_place_found {pid size : Nat} {l : List MemoryBlock} {j : Nat} {b : MemoryBlock}
    (hj : l.get? j = some b)
    (hbefore : ∀ i < j, ∀ b', l.get? i = some b' → ¬(b'.is_free = true ∧ size ≤ b'.size))
    (hfree : b.is_free = true) (hsz : size ≤ b.size) :
    seg_place pid size l = some (⟨b.start, size, some pid⟩,
      l.take j ++ (⟨b.start, size, some pid⟩ : MemoryBlock)
        :: ((if size < b.size
              then [(⟨b.start + size, b.size - size, none⟩ : MemoryBlock)] else [])
        ++ l.drop (j + 1))) := by
  induction l generalizing j with
  | nil => simp at hj
  | cons c cs ih =>
    cases j with
    | zero =>
      have hcb : c = b := by simpa using hj
      subst hcb
      by_cases hlt : size < c.size <;> simp [seg_place, hfree, hsz, hlt]
    | succ j' =>
      have hc : ¬(c.is_free = true ∧ size ≤ c.size) :=
        hbefore 0 (Nat.succ_pos _) c rfl
      simp only [seg_place, if_neg hc]
      have hrec := ih (by simpa using hj)
        (fun i hi b' hb' => hbefore (i + 1) (by omega) b' (by simpa using hb'))
      rw [hrec]
      simp

/-- C5: a segmentation allocation on a fresh id scans the block list in
address order and takes the first free block at least as large as the
request: if none qualifies it fails (ERROR event, block list unchanged);
if the first qualifying block is strictly larger it is replaced by the
owned segment followed by a free remainder; if it matches exactly it is
re-owned whole with no remainder block inserted. -/
theorem C5_segmentation_first_fit (s : MemoryManager) (pid size : Nat)
    (h : plookup s.processes pid = none) :
    ((∀ b ∈ s.memory_blocks, ¬(b.is_free = true ∧ size ≤ b.size)) →
       (allocate_process s pid size .segmentation).1 = false ∧
       (allocate_process s pid size .segmentation).2.memory_blocks = s.memory_blocks ∧
       (allocate_process s pid size .segmentation).2.events
         = s.events ++ [⟨"ERROR", pid⟩]) ∧
    (∀ j b, s.memory_blocks.get? j = some b →
       (∀ i < j, ∀ b', s.memory_blocks.get? i = some b' →
          ¬(b'.is_free = true ∧ size ≤ b'.size)) →
       b.is_free = true → size ≤ b.size →
       (allocate_process s pid size .segmentation).1 = true ∧
       plookup (allocate_process s pid size .segmentation).2.processes pid
         = some ⟨pid, size, [], [⟨b.start, size, some pid⟩]⟩ ∧
       (size < b.size →
          (allocate_process s pid size .segmentation).2.memory_blocks
            = s.memory_blocks.take j
              ++ (⟨b.start, size, some pid⟩ : MemoryBlock)
              :: (⟨b.start + size, b.size - size, none⟩ : MemoryBlock)
              :: s.memory_blocks.drop (j + 1)) ∧
       (size = b.size →
          (allocate_process s pid size .segmentation).2.memory_blocks
            = s.memory_blocks.take j
              ++ (⟨b.start, size, some pid⟩ : MemoryBlock)
              :: s.memory_blocks.drop (j + 1)) ∧
       (allocate_process s pid size .segmentation).2.events
         = s.events ++ [⟨"ALLOCATION", pid⟩]) := by
  constructor
  · intro hall
    have hsp : seg_place pid size s.memory_blocks = none :=
      seg_place_eq_none_iff.mpr hall
    simp only [allocate_process, h, Option.isSome_none, Bool.false_eq_true, if_false]
    unfold allocate_segmentation
    simp only [hsp]
    have hfields := calc_ext_frag_fields (log_event { s with
      processes := s.processes ++ [(pid, ⟨pid, size, [], []⟩)] } "ERROR" pid)
    simp [log_event] at hfields
    simp [hfields, log_event]
  · intro j b hj hbefore hfree hsz
    have hsp := @seg_place_found pid size s.memory_blocks j b hj hbefore hfree hsz
    simp only [allocate_process, h, Option.isSome_none, Bool.false_eq_true, if_false]
    unfold allocate_segmentation
    simp only [hsp]
    refine ⟨trivial, ?_, fun hlt => by simp [log_event, hlt], fun heq => ?_,
      by simp [log_event]⟩
    · simp only [log_event]
      show plookup (set_process (s.processes ++ [(pid, ⟨pid, size, [], []⟩)]) pid
        ⟨pid, size, [], [] ++ [⟨b.start, size, some pid⟩]⟩) pid = _
      rw [set_process_append_fresh h]
      simpa using plookup_append_self h
    · have hlt : ¬ size < b.size := by omega
      simp [log_event, hlt]

/-- C5 (witness): an oversized request fails; an exact-size request on
the second (first qualifying) block succeeds. -/
theorem C5_witness :
    (allocate_process (MemoryManager.init 16 4) 3 99 .segmentation).1 = false ∧
    (allocate_process ((allocate_process (MemoryManager.init 16 4) 1 5 .segmentation).2) 2 11
      .segmentation).1 = true :=
  ⟨((C5_segmentation_first_fit (MemoryManager.init 16 4) 3 99 (by decide)).1
      (by decide)).1,
   ((C5_segmentation_first_fit
      ((allocate_process (MemoryManager.init 16 4) 1 5 .segmentation).2) 2 11
      (by decide)).2 1 ⟨5, 11, none⟩ (by decide)
      (by
        intro i hi b' hb'
        have hi0 : i = 0 := by omega
        subst hi0
        have hev : ((allocate_process (MemoryManager.init 16 4) 1 5
            .segmentation).2).memory_blocks.get? 0 = some ⟨0, 5, some 1⟩ := by decide
        rw [hev] at hb'
        injection hb' with hb
        subst hb
        decide)
      (by decide) (by decide)).1⟩

/-! Lemmas about `free_frames` and `assign_frames`, for the paging
allocation claims. -/

theorem mem_free_frames_from {t : List (Option Nat)} {i f : Nat} :
    f ∈ free_frames_from i t ↔ ∃ j, t.get? j = some none ∧ f = i + j := by
  induction t generalizing i with
  | nil => simp [free_frames_from]
  | cons o rest ih =>
    cases o with
    | none =>
      simp only [free_frames_from, List.mem_cons, ih]
      constructor
      · rintro (rfl | ⟨j, hj, rfl⟩)
        · exact ⟨0, rfl, by omega⟩
        · exact ⟨j + 1, by simpa using hj, by omega⟩
      · rintro ⟨j, hj, rfl⟩
        cases j with
        | zero => left; omega
        | succ j' => right; exact ⟨j', by simpa using hj, by omega⟩
    | some v =>
      simp only [free_frames_from, ih]
      constructor
      · rintro ⟨j, hj, rfl⟩; exact ⟨j + 1, by simpa using hj, by omega⟩
      · rintro ⟨j, hj, rfl⟩
        cases j with
        | zero => simp at hj
        | succ j' => exact ⟨j', by simpa using hj, by omega⟩

theorem mem_free_frames {t : List (Option Nat)} {f : Nat} :
    f ∈ free_frames t ↔ t.get? f = some none := by
  unfold free_frames
  rw [mem_free_frames_from]
  constructor
  · rintro ⟨j, hj, rfl⟩; simpa using hj
  · intro h; exact ⟨f, h, by omega⟩

theorem free_frames_from_ge {t : List (Option Nat)} :
    ∀ {i f : Nat}, f ∈ free_frames_from i t → i ≤ f := by
  induction t with
  | nil => intro i f hf; simp [free_frames_from] at hf
  | cons o rest ih =>
    intro i f hf
    cases o with
    | none =>
      rcases List.mem_cons.mp hf with rfl | hf'
      · omega
      · have := ih hf'; omega
    | some v =>
      have := ih hf; omega

theorem free_frames_from_sorted (t : List (Option Nat)) :
    ∀ i, List.Sorted (· < ·) (free_frames_from i t) := by
  induction t with
  | nil => intro i; simp [free_frames_from]
  | cons o rest ih =>
    intro i
    cases o with
    | none =>
      refine List.sorted_cons.mpr ⟨fun b hb => ?_, ih (i + 1)⟩
      have := free_frames_from_ge hb; omega
    | some v => exact ih (i + 1)

theorem free_frames_sorted (t : List (Option Nat)) :
    List.Sorted (· < ·) (free_frames t) :=
  free_frames_from_sorted t 0

theorem sorted_take_lt_drop {l : List Nat} (h : List.Sorted (· < ·) l) (k : Nat) :
    ∀ f ∈ l.take k, ∀ g ∈ l.drop k, f < g := by
  have h2 : List.Pairwise (· < ·) (l.take k ++ l.drop k) := by
    rw [List.take_append_drop]; exact h
  exact (List.pairwise_append.mp h2).2.2

theorem mem_free_frames_lt_length {t : List (Option Nat)} {f : Nat}
    (h : f ∈ free_frames t) : f < t.length := by
  by_contra hge
  have := List.get?_eq_none.mpr (by omega : t.length ≤ f)
  rw [mem_free_frames] at h
  rw [this] at h
  cases h

theorem assign_frames_pages (ps pid : Nat) :
    ∀ (fs : List Nat) (i : Nat) (t : List (Option Nat)) (bl : List MemoryBlock),
      (assign_frames ps pid fs i t bl).1.map (fun pg => pg.frame_id) = fs.map some ∧
      (assign_frames ps pid fs i t bl).1.map (fun pg => pg.page_id)
        = List.range' i fs.length := by
  intro fs
  induction fs with
  | nil => intro i t bl; simp [assign_frames]
  | cons f fs' ih =>
    intro i t bl
    simp only [assign_frames, List.map_cons, List.length_cons, List.range'_succ]
    exact ⟨by rw [(ih (i + 1) _ _).1], by rw [(ih (i + 1) _ _).2]⟩

theorem assign_frames_table (ps pid : Nat) :
    ∀ (fs : List Nat) (i : Nat) (t : List (Option Nat)) (bl : List MemoryBlock) (g : Nat),
      (∀ f ∈ fs, f < t.length) →
      (assign_frames ps pid fs i t bl).2.1.get? g
        = if g ∈ fs then some (some pid) else t.get? g := by
  intro fs
  induction fs with
  | nil => intro i t bl g _; simp [assign_frames]
  | cons f fs' ih =>
    intro i t bl g hlen
    have hf : f < t.length := hlen f (by simp)
    have hlen' : ∀ x ∈ fs', x < (t.set f (some pid)).length := by
      intro x hx; rw [List.length_set]; exact hlen x (by simp [hx])
    simp only [assign_frames]
    rw [ih (i + 1) (t.set f (some pid)) (place_page (f * ps) ps pid bl) g hlen']
    by_cases hg : g ∈ fs'
    · simp [hg]
    · by_cases hgf : g = f
      · subst hgf
        rw [List.get?_set_of_lt' _ _ hf]
        simp [hg]
      · rw [List.get?_set_of_lt' _ _ hf]
        simp [hg, hgf, Ne.symm hgf]

/-- C4: a paging allocation on a fresh id fails exactly when fewer free
frames exist than `ceil(size / page_size)` — logging a PAGE_FAULT,
incrementing the page-fault counter and assigning no frame — and
otherwise succeeds, giving the process pages 0..k-1 mapped, in ascending
order, onto the lowest-index free frames, and adding
`page_size - size % page_size` to internal fragmentation when the size
is not a page multiple (zero otherwise). -/
theorem C4_paging_allocation (s : MemoryManager) (pid size : Nat)
    (h : plookup s.processes pid = none)
    (hstale : ∀ o ∈ s.page_table, o ≠ some pid) :
    ((free_frames s.page_table).length < (size + s.page_size - 1) / s.page_size →
       (allocate_process s pid size .paging).1 = false ∧
       (allocate_process s pid size .paging).2.page_table = s.page_table ∧
       (allocate_process s pid size .paging).2.memory_blocks = s.memory_blocks ∧
       (allocate_process s pid size .paging).2.page_faults = s.page_faults + 1 ∧
       (allocate_process s pid size .paging).2.events
         = s.events ++ [⟨"PAGE_FAULT", pid⟩] ∧
       (allocate_process s pid size .paging).2.internal_fragmentation
         = s.internal_fragmentation) ∧
    ((size + s.page_size - 1) / s.page_size ≤ (free_frames s.page_table).length →
       (allocate_process s pid size .paging).1 = true ∧
       (∃ p, plookup (allocate_process s pid size .paging).2.processes pid = some p ∧
          p.pages.map (fun pg => pg.page_id)
            = List.range ((size + s.page_size - 1) / s.page_size) ∧
          p.pages.map (fun pg => pg.frame_id)
            = ((free_frames s.page_table).take
                ((size + s.page_size - 1) / s.page_size)).map some) ∧
       (∀ f, (allocate_process s pid size .paging).2.page_table.get? f = some (some pid)
          ↔ f ∈ (free_frames s.page_table).take
              ((size + s.page_size - 1) / s.page_size)) ∧
       (∀ f, f ∈ free_frames s.page_table ↔ s.page_table.get? f = some none) ∧
       List.Sorted (· < ·) (free_frames s.page_table) ∧
       (∀ f ∈ (free_frames s.page_table).take ((size + s.page_size - 1) / s.page_size),
          ∀ g ∈ (free_frames s.page_table).drop ((size + s.page_size - 1) / s.page_size),
          f < g) ∧
       (allocate_process s pid size .paging).2.internal_fragmentation
         = s.internal_fragmentation
           + (if size % s.page_size = 0 then 0 else s.page_size - size % s.page_size) ∧
       (allocate_process s pid size .paging).2.events
         = s.events ++ [⟨"ALLOCATION", pid⟩]) := by
  constructor
  · intro hlt
    simp only [allocate_process, h, Option.isSome_none, Bool.false_eq_true, if_false]
    unfold allocate_paging
    simp only [hlt, if_pos, log_event]
    simp
  · intro hge
    have hnlt : ¬ (free_frames s.page_table).length
        < (size + s.page_size - 1) / s.page_size := by omega
    have htk : ∀ f ∈ (free_frames s.page_table).take
        ((size + s.page_size - 1) / s.page_size), f < s.page_table.length :=
      fun f hf => mem_free_frames_lt_length (List.mem_of_mem_take hf)
    have htab := assign_frames_table s.page_size pid
      ((free_frames s.page_table).take ((size + s.page_size - 1) / s.page_size)) 0
      s.page_table s.memory_blocks
    have hpg := assign_frames_pages s.page_size pid
      ((free_frames s.page_table).take ((size + s.page_size - 1) / s.page_size)) 0
      s.page_table s.memory_blocks
    simp only [allocate_process, h, Option.isSome_none, Bool.false_eq_true, if_false]
    unfold allocate_paging
    simp only [hnlt, if_neg, if_false, log_event]
    refine ⟨trivial, ?_, ?_, fun f => mem_free_frames, free_frames_sorted _,
      sorted_take_lt_drop (free_frames_sorted _) _, ?_, by simp⟩
    · refine ⟨⟨pid, size,
        (assign_frames s.page_size pid ((free_frames s.page_table).take
          ((size + s.page_size - 1) / s.page_size)) 0 s.page_table s.memory_blocks).1, []⟩,
        ?_, ?_, ?_⟩
      · rw [set_process_append_fresh h]
        exact plookup_append_self h
      · rw [hpg.2, List.length_take]
        rw [List.range_eq_range']
        congr 1
        omega
      · exact hpg.1
    · intro f
      rw [htab f htk]
      by_cases hf : f ∈ (free_frames s.page_table).take
          ((size + s.page_size - 1) / s.page_size)
      · simp [hf]
      · simp only [hf, if_false, iff_false]
        intro hsome
        exact hstale (some pid) (List.get?_mem hsome) rfl
    · by_cases hz : size % s.page_size = 0
      · simp [hz]
      · have : 0 < size % s.page_size := Nat.pos_of_ne_zero hz
        simp [hz, this]

/-- C4 (witness): a 6-unit request on 4 free frames succeeds; an 8-unit
request on a single 4-unit frame fails with a page fault. -/
theorem C4_witness :
    (allocate_process (MemoryManager.init 16 4) 1 6 .paging).1 = true ∧
    (allocate_process (MemoryManager.init 4 4) 2 8 .paging).1 = false :=
  ⟨((C4_paging_allocation (MemoryManager.init 16 4) 1 6 (by decide) (by decide)).2
      (by decide)).1,
   ((C4_paging_allocation (MemoryManager.init 4 4) 2 8 (by decide) (by decide)).1
      (by decide)).1⟩

/-! Lemmas about `merge_go`, block freeing, and `free_first_match`,
for the deallocation and invariant claims. -/

theorem get?_set' {α : Type} (l : List α) (i j : Nat) (a : α) :
    (l.set i a).get? j = if i = j ∧ j < l.length then some a else l.get? j := by
  induction l generalizing i j with
  | nil => simp
  | cons x xs ih =>
    cases i with
    | zero =>
      cases j with
      | zero => simp
      | succ j' => simp
    | succ i' =>
      cases j with
      | zero => simp
      | succ j' =>
        simp only [List.set, List.get?_cons_succ, List.length_cons]
        rw [ih]
        exact if_congr (by omega) rfl rfl

theorem merge_go_head : ∀ (n : Nat) (b : MemoryBlock) (bs : List MemoryBlock),
    ∃ b', (merge_go n (b :: bs)).head? = some b' ∧
      b'.is_free = b.is_free ∧ b'.start = b.start := by
  intro n
  induction n with
  | zero => exact fun b bs => ⟨b, rfl, rfl, rfl⟩
  | succ n ih =>
    intro b bs
    cases bs with
    | nil => exact ⟨b, rfl, rfl, rfl⟩
    | cons b₂ rest =>
      by_cases hf : b.is_free = true ∧ b₂.is_free = true
      · obtain ⟨b', h1, h2, h3⟩ := ih ⟨b.start, b.size + b₂.size, none⟩ rest
        refine ⟨b', ?_, ?_, h3⟩
        · rw [show merge_go (n + 1) (b :: b₂ :: rest)
              = merge_go n ((⟨b.start, b.size + b₂.size, none⟩ : MemoryBlock) :: rest)
            from by simp [merge_go, hf]]
          exact h1
        · rw [h2, hf.1]; rfl
      · exact ⟨b, by simp [merge_go, hf], rfl, rfl⟩

theorem merge_go_no_adjacent : ∀ (n : Nat) (l : List MemoryBlock), l.length ≤ n →
    no_adjacent_free (merge_go n l) = true := by
  intro n
  induction n with
  | zero =>
    intro l hl
    have : l = [] := List.eq_nil_of_length_eq_zero (by omega)
    subst this; rfl
  | succ n ih =>
    intro l hl
    match l with
    | [] => rfl
    | [b] => rfl
    | b₁ :: b₂ :: bs =>
      by_cases hf : b₁.is_free = true ∧ b₂.is_free = true
      · rw [show merge_go (n + 1) (b₁ :: b₂ :: bs)
            = merge_go n ((⟨b₁.start, b₁.size + b₂.size, none⟩ : MemoryBlock) :: bs)
          from by simp [merge_go, hf]]
        exact ih _ (by simp at hl ⊢; omega)
      · rw [show merge_go (n + 1) (b₁ :: b₂ :: bs) = b₁ :: merge_go n (b₂ :: bs)
          from by simp [merge_go, hf]]
        obtain ⟨b', hh, hfree, _⟩ := merge_go_head n b₂ bs
        have h2 : no_adjacent_free (merge_go n (b₂ :: bs)) = true :=
          ih _ (by simp at hl ⊢; omega)
        cases hmg : merge_go n (b₂ :: bs) with
        | nil => rfl
        | cons c cc =>
          rw [hmg] at hh h2
          have hc : c = b' := by simpa using hh
          subst hc
          simp only [no_adjacent_free, Bool.and_eq_true, h2, and_true]
          rw [hfree]
          cases hb1 : b₁.is_free with
          | false => rfl
          | true =>
            cases hb2 : b₂.is_free with
            | false => rfl
            | true => exact absurd ⟨hb1, hb2⟩ hf

theorem merge_go_filter_not_free {P : MemoryBlock → Bool}
    (hP : ∀ b, b.is_free = true → P b = false) :
    ∀ (n : Nat) (l : List MemoryBlock), (merge_go n l).filter P = l.filter P := by
  intro n
  induction n with
  | zero => intro l; rfl
  | succ n ih =>
    intro l
    match l with
    | [] => rfl
    | [b] => rfl
    | b₁ :: b₂ :: bs =>
      by_cases hf : b₁.is_free = true ∧ b₂.is_free = true
      · rw [show merge_go (n + 1) (b₁ :: b₂ :: bs)
            = merge_go n ((⟨b₁.start, b₁.size + b₂.size, none⟩ : MemoryBlock) :: bs)
          from by simp [merge_go, hf]]
        rw [ih]
        have hm : P ⟨b₁.start, b₁.size + b₂.size, none⟩ = false :=
          hP _ (by rfl)
        rw [List.filter_cons_of_neg (by simp [hm]),
          List.filter_cons_of_neg (by simp [hP b₁ hf.1]),
          List.filter_cons_of_neg (by simp [hP b₂ hf.2])]
      · rw [show merge_go (n + 1) (b₁ :: b₂ :: bs) = b₁ :: merge_go n (b₂ :: bs)
          from by simp [merge_go, hf]]
        rw [List.filter_cons, List.filter_cons, ih]

theorem total_free_size_cons (b : MemoryBlock) (l : List MemoryBlock) :
    total_free_size (b :: l)
      = (if b.is_free = true then b.size else 0) + total_free_size l := by
  simp only [total_free_size, List.filter_cons]
  cases h : b.is_free <;> simp [h]

theorem merge_go_total_free : ∀ (n : Nat) (l : List MemoryBlock),
    total_free_size (merge_go n l) = total_free_size l := by
  intro n
  induction n with
  | zero => intro l; rfl
  | succ n ih =>
    intro l
    match l with
    | [] => rfl
    | [b] => rfl
    | b₁ :: b₂ :: bs =>
      by_cases hf : b₁.is_free = true ∧ b₂.is_free = true
      · rw [show merge_go (n + 1) (b₁ :: b₂ :: bs)
            = merge_go n ((⟨b₁.start, b₁.size + b₂.size, none⟩ : MemoryBlock) :: bs)
          from by simp [merge_go, hf]]
        rw [ih, total_free_size_cons, total_free_size_cons, total_free_size_cons]
        have hm : (⟨b₁.start, b₁.size + b₂.size, none⟩ : MemoryBlock).is_free = true := rfl
        rw [hm, hf.1, hf.2]
        simp; omega
      · rw [show merge_go (n + 1) (b₁ :: b₂ :: bs) = b₁ :: merge_go n (b₂ :: bs)
          from by simp [merge_go, hf]]
        rw [total_free_size_cons, ih, total_free_size_cons,
          total_free_size_cons b₁ (b₂ :: bs), total_free_size_cons]

theorem total_free_size_append (l₁ l₂ : List MemoryBlock) :
    total_free_size (l₁ ++ l₂) = total_free_size l₁ + total_free_size l₂ := by
  simp [total_free_size, List.filter_append]

theorem plookup_mem {l : List (Nat × Process)} {pid : Nat} {p : Process}
    (h : plookup l pid = some p) : (pid, p) ∈ l := by
  induction l with
  | nil => cases h
  | cons e rest ih =>
    by_cases he : e.1 = pid
    · simp only [plookup, he, if_true, Option.some.injEq] at h
      cases e with
      | mk a b2 =>
        have : (a, b2) = (pid, p) := by
          rw [Prod.mk.injEq]
          exact ⟨he, h⟩
        rw [this]
        exact List.mem_cons_self _ _
    · simp only [plookup, he, if_false] at h
      exact List.mem_cons_of_mem _ (ih h)

theorem filter_owner_map_free (pid q : Nat) (hq : q ≠ pid) (l : List MemoryBlock) :
    (l.map (fun b => if b.process_id = some pid
        then (⟨b.start, b.size, none⟩ : MemoryBlock) else b)).filter
        (fun b => b.process_id == some q)
      = l.filter (fun b => b.process_id == some q) := by
  induction l with
  | nil => rfl
  | cons b bs ih =>
    simp only [List.map_cons]
    by_cases hb : b.process_id = some pid
    · have h2 : (b.process_id == some q) = false := by
        rw [hb]; simpa using fun hh => hq hh.symm
      have h3 : (((⟨b.start, b.size, none⟩ : MemoryBlock)).process_id == some q) = false := by
        simp
      rw [if_pos hb]
      simp only [List.filter_cons, h2, h3, Bool.false_eq_true, if_false]
      exact ih
    · rw [if_neg hb, List.filter_cons, List.filter_cons, ih]

theorem map_free_no_owner (pid : Nat) (l : List MemoryBlock) :
    ∀ b ∈ l.map (fun b => if b.process_id = some pid
        then (⟨b.start, b.size, none⟩ : MemoryBlock) else b),
      (b.process_id == some pid) = false := by
  intro b hb
  obtain ⟨a, _, rfl⟩ := List.mem_map.mp hb
  by_cases ha : a.process_id = some pid
  · simp [ha]
  · simp [ha]

theorem total_free_map_free (pid : Nat) (l : List MemoryBlock) :
    total_free_size (l.map (fun b => if b.process_id = some pid
        then (⟨b.start, b.size, none⟩ : MemoryBlock) else b))
      = total_free_size l
        + ((l.filter (fun b => b.process_id == some pid)).map (fun b => b.size)).sum := by
  induction l with
  | nil => rfl
  | cons b bs ih =>
    simp only [List.map_cons, List.filter_cons]
    by_cases hb : b.process_id = some pid
    · have hnf : b.is_free = false := by simp [MemoryBlock.is_free, hb]
      have hfr : ((⟨b.start, b.size, none⟩ : MemoryBlock) : MemoryBlock).is_free = true := rfl
      have hbq : (b.process_id == some pid) = true := by simp [hb]
      rw [if_pos hb, total_free_size_cons, total_free_size_cons, hnf, hfr, hbq]
      simp only [ih]
      simp
      omega
    · have hbq : (b.process_id == some pid) = false := by simpa using hb
      rw [if_neg hb, total_free_size_cons, total_free_size_cons, hbq]
      simp only [ih]
      simp
      omega

theorem filter_singleton_decomp {P : MemoryBlock → Bool} :
    ∀ {l : List MemoryBlock} {x : MemoryBlock}, l.filter P = [x] →
    ∃ l₁ l₂, l = l₁ ++ x :: l₂ ∧ (∀ b ∈ l₁, P b = false) ∧ (∀ b ∈ l₂, P b = false) := by
  intro l
  induction l with
  | nil => intro x h; simp at h
  | cons b bs ih =>
    intro x h
    by_cases hb : P b = true
    · rw [List.filter_cons_of_pos hb] at h
      injection h with h1 h2
      subst h1
      refine ⟨[], bs, rfl, by simp, fun c hc => ?_⟩
      have := List.filter_eq_nil_iff.mp h2 c hc
      simpa using this
    · rw [List.filter_cons_of_neg (by simpa using hb)] at h
      obtain ⟨l₁, l₂, rfl, h1, h2⟩ := ih h
      refine ⟨b :: l₁, l₂, rfl, ?_, h2⟩
      intro c hc
      rcases List.mem_cons.mp hc with rfl | hc
      · simpa using hb
      · exact h1 c hc

theorem free_first_match_decomp (pid st : Nat) :
    ∀ (l₁ : List MemoryBlock) (x : MemoryBlock) (l₂ : List MemoryBlock),
      x.start = st → x.process_id = some pid →
      (∀ b ∈ l₁, ¬(b.process_id = some pid)) →
      free_first_match pid st (l₁ ++ x :: l₂)
        = l₁ ++ (⟨x.start, x.size, none⟩ : MemoryBlock) :: l₂ := by
  intro l₁
  induction l₁ with
  | nil =>
    intro x l₂ hst ho _
    simp [free_first_match, hst, ho]
  | cons b bs ih =>
    intro x l₂ hst ho h1
    have hb : ¬(b.start = st ∧ b.process_id = some pid) := fun hcon => h1 b (by simp) hcon.2
    simp only [List.cons_append, free_first_match, if_neg hb, List.append_eq]
    rw [ih x l₂ hst ho (fun c hc => h1 c (by simp [hc]))]

theorem clear_frames_get? :
    ∀ (pgs : List Page) (t : List (Option Nat)) (g : Nat),
      (pgs.foldl (fun t pg => match pg.frame_id with
        | some f => t.set f none
        | none => t) t).get? g
      = if (∃ pg ∈ pgs, pg.frame_id = some g) ∧ g < t.length then some none
        else t.get? g := by
  intro pgs
  induction pgs with
  | nil => intro t g; simp
  | cons pg pgs' ih =>
    intro t g
    simp only [List.foldl_cons]
    cases hfr : pg.frame_id with
    | none =>
      simp only [hfr]
      rw [ih]
      exact if_congr (by simp [hfr]) rfl rfl
    | some f =>
      simp only [hfr]
      rw [ih, List.length_set]
      by_cases hex : ∃ x ∈ pgs', x.frame_id = some g
      · by_cases hlen : g < t.length
        · simp [hex, hlen, hfr]
        · have h1 : (t.set f none).get? g = none :=
            List.get?_eq_none.mpr (by rw [List.length_set]; omega)
          have h2 : t.get? g = none := List.get?_eq_none.mpr (by omega)
          rw [if_neg (fun hcon => hlen hcon.2), if_neg (fun hcon => hlen hcon.2), h1, h2]
      · rw [if_neg (fun hcon => hex hcon.1), get?_set']
        by_cases hfg : f = g
        · subst hfg
          by_cases hlen : f < t.length
          · simp [hex, hlen, hfr]
          · have h2 : t.get? f = none := List.get?_eq_none.mpr (by omega)
            simp [hex, hlen, h2]
        · rw [if_neg (fun hcon => hfg hcon.1)]
          have hn2 : ¬ ((∃ x ∈ pg :: pgs', x.frame_id = some g) ∧ g < t.length) := by
            rintro ⟨⟨x, hx, hfx⟩, _⟩
            rcases List.mem_cons.mp hx with rfl | hx'
            · rw [hfr] at hfx
              exact hfg (by injection hfx)
            · exact hex ⟨x, hx', hfx⟩
          rw [if_neg hn2]

theorem get?_eq_some_getD : ∀ (t : List (Option Nat)) (g : Nat), g < t.length →
    t.get? g = some (t.getD g none) := by
  intro t
  induction t with
  | nil => intro g hg; simp at hg
  | cons o rest ih =>
    intro g hg
    cases g with
    | zero => rfl
    | succ g' => exact ih g' (by simpa using hg)

/-- C6: on a state whose bookkeeping is consistent (as every reachable
engine state is), deallocation fails with an ERROR event exactly when
the id is not live; otherwise it succeeds, frees exactly the frames and
ranges owned by that process (leaving every other process's frames,
ranges and records untouched), leaves no two adjacent free ranges
uncoalesced, removes the record — making the id reusable — and logs a
DEALLOCATION event. -/
theorem C6_deallocate (s : MemoryManager) (pid : Nat) (hc : consistent s) :
    (plookup s.processes pid = none →
       deallocate_process s pid = (false, log_event s "ERROR" pid)) ∧
    (∀ p, plookup s.processes pid = some p →
       (deallocate_process s pid).1 = true ∧
       plookup (deallocate_process s pid).2.processes pid = none ∧
       (∀ q, q ≠ pid →
          plookup (deallocate_process s pid).2.processes q = plookup s.processes q) ∧
       (∀ g, (deallocate_process s pid).2.page_table.get? g
          = (s.page_table.get? g).map (fun o => if o = some pid then none else o)) ∧
       (∀ b ∈ (deallocate_process s pid).2.memory_blocks, ¬ b.process_id = some pid) ∧
       (∀ q, q ≠ pid →
          (deallocate_process s pid).2.memory_blocks.filter
              (fun b => b.process_id == some q)
            = s.memory_blocks.filter (fun b => b.process_id == some q)) ∧
       total_free_size (deallocate_process s pid).2.memory_blocks
         = total_free_size s.memory_blocks
           + ((s.memory_blocks.filter (fun b => b.process_id == some pid)).map
               (fun b => b.size)).sum ∧
       (no_adjacent_free s.memory_blocks = true →
          no_adjacent_free (deallocate_process s pid).2.memory_blocks = true) ∧
       (deallocate_process s pid).2.events = s.events ++ [⟨"DEALLOCATION", pid⟩]) := by
  refine ⟨fun h => by simp [deallocate_process, h], fun p hp => ?_⟩
  have hmem := plookup_mem hp
  obtain ⟨hcp, _⟩ := hc
  obtain ⟨hpidf, hframes, hempty, hseg, hxor, hlen1⟩ := hcp (pid, p) hmem
  dsimp only at hpidf hframes hempty hseg hxor hlen1
  cases hpg : p.pages with
  | cons pg0 pgrest =>
    -- paging process: every owned frame and every owned block is freed
    have hde : deallocate_process s pid
        = (true, log_event { deallocate_paging s p with
            processes := erase_process s.processes pid } "DEALLOCATION" pid) := by
      unfold deallocate_process
      rw [hp]
      dsimp only
      rw [hpg]
      rfl
    rw [hde]
    simp only [log_event, deallocate_paging, hpidf, merge_adjacent_free_blocks]
    refine ⟨trivial, plookup_erase_self _ _, fun q hq => plookup_erase_ne _ hq, ?_,
      ?_, ?_, ?_, fun _ => ?_, by simp⟩
    · intro g
      rw [clear_frames_get?]
      by_cases hglen : g < s.page_table.length
      · rw [get?_eq_some_getD _ _ hglen]
        by_cases ho : s.page_table.getD g none = some pid
        · have hex : ∃ pg ∈ p.pages, pg.frame_id = some g := (hframes g hglen).mp ho
          rw [if_pos ⟨hex, hglen⟩, ho]
          simp
        · have hnex : ¬ ∃ pg ∈ p.pages, pg.frame_id = some g :=
            fun hex => ho ((hframes g hglen).mpr hex)
          rw [if_neg (fun hcon => hnex hcon.1)]
          simp only [Option.map_some']
          rw [if_neg ho]
      · have hnone : s.page_table.get? g = none := List.get?_eq_none.mpr (by omega)
        rw [if_neg (fun hcon => hglen hcon.2), hnone]
        rfl
    · intro b hb
      have hfilt : (s.memory_blocks.map (fun b => if b.process_id = some pid
          then (⟨b.start, b.size, none⟩ : MemoryBlock) else b)).filter
            (fun b => b.process_id == some pid) = [] :=
        List.filter_eq_nil_iff.mpr (fun c hcmem => by
          simp [map_free_no_owner pid s.memory_blocks c hcmem])
      have hthis := @merge_go_filter_not_free (fun b => b.process_id == some pid)
        (fun c hcf => by
          simp only [MemoryBlock.is_free, Option.isNone_iff_eq_none] at hcf
          simp [hcf])
        (s.memory_blocks.map (fun b => if b.process_id = some pid
          then (⟨b.start, b.size, none⟩ : MemoryBlock) else b)).length
        (s.memory_blocks.map (fun b => if b.process_id = some pid
          then (⟨b.start, b.size, none⟩ : MemoryBlock) else b))
      rw [hfilt] at hthis
      have hbn := List.filter_eq_nil_iff.mp hthis b hb
      simpa using hbn
    · intro q hq
      rw [merge_go_filter_not_free (fun c hcf => by
          simp only [MemoryBlock.is_free, Option.isNone_iff_eq_none] at hcf
          simp [hcf])]
      exact filter_owner_map_free pid q hq s.memory_blocks
    · rw [merge_go_total_free]
      exact total_free_map_free pid s.memory_blocks
    · exact merge_go_no_adjacent _ _ (le_refl _)
  | nil =>
    have hnopid : ∀ g, g < s.page_table.length → s.page_table.getD g none ≠ some pid := by
      intro g hg hgp
      obtain ⟨pg', hpg', _⟩ := (hframes g hg).mp hgp
      rw [hpg] at hpg'
      cases hpg'
    have htable : ∀ g, s.page_table.get? g
        = (s.page_table.get? g).map (fun o => if o = some pid then none else o) := by
      intro g
      by_cases hglen : g < s.page_table.length
      · rw [get?_eq_some_getD _ _ hglen]
        simp only [Option.map_some']
        rw [if_neg (hnopid g hglen)]
      · rw [List.get?_eq_none.mpr (by omega)]
        rfl
    cases hsg : p.segments with
    | nil =>
      -- the process owns nothing: the state is unchanged except for the record
      have hde : deallocate_process s pid
          = (true, log_event { s with
              processes := erase_process s.processes pid } "DEALLOCATION" pid) := by
        unfold deallocate_process
        rw [hp]
        dsimp only
        rw [hpg, hsg]
      rw [hde]
      simp only [log_event]
      have hblocks_no : ∀ b ∈ s.memory_blocks, ¬ b.process_id = some pid := by
        intro b hb
        exact hempty hpg hsg b hb
      have hfilt : s.memory_blocks.filter (fun b => b.process_id == some pid) = [] :=
        List.filter_eq_nil_iff.mpr (fun c hcmem => by simp [hblocks_no c hcmem])
      refine ⟨trivial, plookup_erase_self _ _, fun q hq => plookup_erase_ne _ hq,
        htable, hblocks_no, ?_, ?_, fun h => h, by simp⟩
      · intro q hq
        trivial
      · rw [hfilt]
        simp
    | cons sg rest =>
      -- segmentation process: it owns exactly its one segment's block
      have hrest : rest = [] := by
        rw [hsg] at hlen1
        simp only [List.length_cons] at hlen1
        exact List.eq_nil_of_length_eq_zero (by omega)
      subst hrest
      have hfilter : s.memory_blocks.filter (fun b => b.process_id == some pid)
          = [⟨sg.start, sg.size, some pid⟩] := hseg sg (by rw [hsg]; exact List.mem_cons_self _ _)
      obtain ⟨l₁, l₂, hsplit, hP1, hP2⟩ := filter_singleton_decomp hfilter
      have hffm : free_first_match pid sg.start s.memory_blocks
          = l₁ ++ (⟨sg.start, sg.size, none⟩ : MemoryBlock) :: l₂ := by
        rw [hsplit]
        exact free_first_match_decomp pid sg.start l₁ _ l₂ rfl rfl
          (fun b hb => by simpa using hP1 b hb)
      have hde : deallocate_process s pid
          = (true, log_event { deallocate_segmentation s p with
              processes := erase_process s.processes pid } "DEALLOCATION" pid) := by
        unfold deallocate_process
        rw [hp]
        dsimp only
        rw [hpg, hsg]
        rfl
      rw [hde]
      simp only [log_event, deallocate_segmentation, hpidf, hsg, List.foldl_cons,
        List.foldl_nil, hffm, merge_adjacent_free_blocks]
      have hPfree : ∀ c : MemoryBlock, c.is_free = true →
          ∀ q : Nat, (c.process_id == some q) = false := by
        intro c hcf q
        simp only [MemoryBlock.is_free, Option.isNone_iff_eq_none] at hcf
        simp [hcf]
      refine ⟨trivial, plookup_erase_self _ _, fun q hq => plookup_erase_ne _ hq,
        htable, ?_, ?_, ?_, fun _ => ?_, by simp⟩
      · intro b hb
        have hfilt2 : (l₁ ++ (⟨sg.start, sg.size, none⟩ : MemoryBlock) :: l₂).filter
            (fun b => b.process_id == some pid) = [] := by
          rw [List.filter_append, List.filter_cons,
            List.filter_eq_nil_iff.mpr (fun b hb => by simp [hP1 b hb]),
            List.filter_eq_nil_iff.mpr (fun b hb => by simp [hP2 b hb])]
          simp
        have hthis := @merge_go_filter_not_free (fun b => b.process_id == some pid)
          (fun c hcf => hPfree c hcf pid)
          (l₁ ++ (⟨sg.start, sg.size, none⟩ : MemoryBlock) :: l₂).length
          (l₁ ++ (⟨sg.start, sg.size, none⟩ : MemoryBlock) :: l₂)
        rw [hfilt2] at hthis
        have hbn := List.filter_eq_nil_iff.mp hthis b hb
        simpa using hbn
      · intro q hq
        rw [merge_go_filter_not_free (fun c hcf => hPfree c hcf q), hsplit,
          List.filter_append, List.filter_append, List.filter_cons, List.filter_cons]
        have hx : ((⟨sg.start, sg.size, some pid⟩ : MemoryBlock).process_id == some q)
            = false := by simpa using fun hh => hq hh.symm
        have hfr : ((⟨sg.start, sg.size, none⟩ : MemoryBlock).process_id == some q)
            = false := by simp
        rw [hx, hfr]
        simp
      · rw [merge_go_total_free, hsplit]
        rw [total_free_size_append, total_free_size_append,
          total_free_size_cons, total_free_size_cons]
        have h1 : ((⟨sg.start, sg.size, none⟩ : MemoryBlock)).is_free = true := rfl
        have h2 : ((⟨sg.start, sg.size, some pid⟩ : MemoryBlock)).is_free = false := rfl
        rw [h1, h2, List.filter_append, List.filter_cons,
          List.filter_eq_nil_iff.mpr (fun b hb => by simp [hP1 b hb]),
          List.filter_eq_nil_iff.mpr (fun b hb => by simp [hP2 b hb])]
        simp
        omega
      · exact merge_go_no_adjacent _ _ (le_refl _)

/-! Preservation of the Range-Model invariant (tiling, positive sizes,
no adjacent free blocks) by each block-list transformation. -/

theorem noadj_cons_iff {x : MemoryBlock} {xs : List MemoryBlock} :
    no_adjacent_free (x :: xs) = true ↔
      no_adjacent_free xs = true ∧
      (∀ y, xs.head? = some y → ¬(x.is_free = true ∧ y.is_free = true)) := by
  cases xs with
  | nil => simp [no_adjacent_free]
  | cons y ys =>
    simp only [no_adjacent_free, Bool.and_eq_true, Bool.not_eq_true',
      Bool.and_eq_false_iff, List.head?_cons]
    constructor
    · rintro ⟨h1, h2⟩
      refine ⟨h2, fun z hz => ?_⟩
      injection hz with hz
      subst hz
      rintro ⟨hx, hy⟩
      rcases h1 with h1 | h1
      · rw [hx] at h1; cases h1
      · rw [hy] at h1; cases h1
    · rintro ⟨h2, h1⟩
      refine ⟨?_, h2⟩
      have := h1 y rfl
      cases hx : x.is_free with
      | false => exact Or.inl rfl
      | true =>
        cases hy : y.is_free with
        | false => exact Or.inr rfl
        | true => exact absurd ⟨hx, hy⟩ this

theorem tilesB_cons_iff {b : MemoryBlock} {bs : List MemoryBlock} {o m : Nat} :
    tilesB o (b :: bs) m = true ↔ b.start = o ∧ tilesB (o + b.size) bs m = true := by
  simp [tilesB]

theorem all_positive_cons_iff {b : MemoryBlock} {bs : List MemoryBlock} :
    all_positive (b :: bs) = true ↔ 0 < b.size ∧ all_positive bs = true := by
  simp [all_positive]

theorem merge_go_tiles_pos : ∀ (n : Nat) (l : List MemoryBlock) (o m : Nat),
    tilesB o l m = true → all_positive l = true →
    tilesB o (merge_go n l) m = true ∧ all_positive (merge_go n l) = true := by
  intro n
  induction n with
  | zero => intro l o m h1 h2; exact ⟨h1, h2⟩
  | succ n ih =>
    intro l o m h1 h2
    match l with
    | [] => exact ⟨h1, h2⟩
    | [b] => exact ⟨h1, h2⟩
    | b₁ :: b₂ :: bs =>
      rw [tilesB_cons_iff] at h1
      obtain ⟨hs1, h1⟩ := h1
      rw [tilesB_cons_iff] at h1
      obtain ⟨hs2, h1⟩ := h1
      rw [all_positive_cons_iff] at h2
      obtain ⟨hp1, h2⟩ := h2
      rw [all_positive_cons_iff] at h2
      obtain ⟨hp2, h2⟩ := h2
      by_cases hf : b₁.is_free = true ∧ b₂.is_free = true
      · rw [show merge_go (n + 1) (b₁ :: b₂ :: bs)
            = merge_go n ((⟨b₁.start, b₁.size + b₂.size, none⟩ : MemoryBlock) :: bs)
          from by simp [merge_go, hf]]
        refine ih _ o m ?_ ?_
        · rw [tilesB_cons_iff]
          refine ⟨hs1, ?_⟩
          have heq : o + (b₁.size + b₂.size) = o + b₁.size + b₂.size := by omega
          rw [heq]
          exact h1
        · rw [all_positive_cons_iff]
          exact ⟨Nat.lt_of_lt_of_le hp1 (Nat.le_add_right _ _), h2⟩
      · rw [show merge_go (n + 1) (b₁ :: b₂ :: bs) = b₁ :: merge_go n (b₂ :: bs)
          from by simp [merge_go, hf]]
        have hrec := ih (b₂ :: bs) (o + b₁.size) m
          (tilesB_cons_iff.mpr ⟨hs2, h1⟩) (all_positive_cons_iff.mpr ⟨hp2, h2⟩)
        exact ⟨tilesB_cons_iff.mpr ⟨hs1, hrec.1⟩,
          all_positive_cons_iff.mpr ⟨hp1, hrec.2⟩⟩

theorem map_free_tiles_pos (pid : Nat) :
    ∀ (l : List MemoryBlock) (o m : Nat),
      tilesB o l m = true → all_positive l = true →
      tilesB o (l.map (fun b => if b.process_id = some pid
        then (⟨b.start, b.size, none⟩ : MemoryBlock) else b)) m = true ∧
      all_positive (l.map (fun b => if b.process_id = some pid
        then (⟨b.start, b.size, none⟩ : MemoryBlock) else b)) = true := by
  intro l
  induction l with
  | nil => intro o m h1 h2; exact ⟨h1, h2⟩
  | cons b bs ih =>
    intro o m h1 h2
    rw [tilesB_cons_iff] at h1
    obtain ⟨hs1, h1⟩ := h1
    rw [all_positive_cons_iff] at h2
    obtain ⟨hp1, h2⟩ := h2
    have hrec := ih (o + b.size) m h1 h2
    rw [List.map_cons]
    by_cases hb : b.process_id = some pid
    · rw [if_pos hb]
      exact ⟨tilesB_cons_iff.mpr ⟨hs1, hrec.1⟩,
        all_positive_cons_iff.mpr ⟨hp1, hrec.2⟩⟩
    · rw [if_neg hb]
      exact ⟨tilesB_cons_iff.mpr ⟨hs1, hrec.1⟩,
        all_positive_cons_iff.mpr ⟨hp1, hrec.2⟩⟩

theorem free_first_match_tiles_pos (pid st : Nat) :
    ∀ (l : List MemoryBlock) (o m : Nat),
      tilesB o l m = true → all_positive l = true →
      tilesB o (free_first_match pid st l) m = true ∧
      all_positive (free_first_match pid st l) = true := by
  intro l
  induction l with
  | nil => intro o m h1 h2; exact ⟨h1, h2⟩
  | cons b bs ih =>
    intro o m h1 h2
    rw [tilesB_cons_iff] at h1
    obtain ⟨hs1, h1⟩ := h1
    rw [all_positive_cons_iff] at h2
    obtain ⟨hp1, h2⟩ := h2
    by_cases hcond : b.start = st ∧ b.process_id = some pid
    · rw [show free_first_match pid st (b :: bs)
          = (⟨b.start, b.size, none⟩ : MemoryBlock) :: bs
        from by simp [free_first_match, hcond]]
      exact ⟨tilesB_cons_iff.mpr ⟨hs1, h1⟩, all_positive_cons_iff.mpr ⟨hp1, h2⟩⟩
    · rw [show free_first_match pid st (b :: bs) = b :: free_first_match pid st bs
        from by simp [free_first_match, hcond]]
      have hrec := ih (o + b.size) m h1 h2
      exact ⟨tilesB_cons_iff.mpr ⟨hs1, hrec.1⟩,
        all_positive_cons_iff.mpr ⟨hp1, hrec.2⟩⟩

theorem place_page_head_free {fs ps pid : Nat} (b : MemoryBlock) (bs : List MemoryBlock) :
    ∀ b', (place_page fs ps pid (b :: bs)).head? = some b' → b'.is_free = true →
      b.is_free = true := by
  intro b' hh hf
  by_cases hcond : b.is_free = true ∧ b.start ≤ fs ∧ ((fs : Int) + ps - 1) ≤ b.endAddr
  · exact hcond.1
  · rw [show place_page fs ps pid (b :: bs) = b :: place_page fs ps pid bs
      from by simp only [place_page]; rw [if_neg hcond]] at hh
    rw [List.head?_cons] at hh
    injection hh with hh
    rw [← hh] at hf
    exact hf

theorem place_page_inv (ps pid : Nat) (hps : 0 < ps) (fs : Nat) :
    ∀ (l : List MemoryBlock) (o m : Nat),
      tilesB o l m = true → all_positive l = true → no_adjacent_free l = true →
      tilesB o (place_page fs ps pid l) m = true ∧
      all_positive (place_page fs ps pid l) = true ∧
      no_adjacent_free (place_page fs ps pid l) = true := by
  intro l
  induction l with
  | nil => intro o m h1 h2 h3; exact ⟨h1, h2, h3⟩
  | cons b bs ih =>
    intro o m h1 h2 h3
    rw [tilesB_cons_iff] at h1
    obtain ⟨hs1, h1⟩ := h1
    rw [all_positive_cons_iff] at h2
    obtain ⟨hp1, h2⟩ := h2
    rw [noadj_cons_iff] at h3
    obtain ⟨h3, hhead⟩ := h3
    by_cases hcond : b.is_free = true ∧ b.start ≤ fs ∧ ((fs : Int) + ps - 1) ≤ b.endAddr
    · rw [show place_page fs ps pid (b :: bs) = split_block_for_page b fs ps pid ++ bs
        from by simp [place_page, hcond]]
      have hble : b.start ≤ fs := hcond.2.1
      have hc3 : fs + ps ≤ b.start + b.size := by
        have hx := hcond.2.2
        unfold MemoryBlock.endAddr at hx
        omega
      have hbfree : b.is_free = true := hcond.1
      have hbs_head : ∀ y, bs.head? = some y → y.is_free = false := by
        intro y hy
        have hny := hhead y hy
        cases hyf : y.is_free with
        | false => rfl
        | true => exact absurd ⟨hbfree, hyf⟩ hny
      have hnoadj_bs_after : ∀ (c : MemoryBlock), c.is_free = true →
          no_adjacent_free (c :: bs) = true := by
        intro c _
        refine noadj_cons_iff.mpr ⟨h3, fun y hy hcc => ?_⟩
        rw [hbs_head y hy] at hcc
        cases hcc.2
      have halloc_cons : ∀ (rest : List MemoryBlock), no_adjacent_free rest = true →
          no_adjacent_free ((⟨fs, ps, some pid⟩ : MemoryBlock) :: rest) = true := by
        intro rest hrest
        refine noadj_cons_iff.mpr ⟨hrest, fun y hy hcc => ?_⟩
        have : ((⟨fs, ps, some pid⟩ : MemoryBlock)).is_free = false := rfl
        rw [this] at hcc
        cases hcc.1
      unfold split_block_for_page
      by_cases hpre : b.start < fs
      · by_cases hpost : ((fs : Int) + ps - 1) < b.endAddr
        · have hpost' : fs + ps < b.start + b.size := by
            unfold MemoryBlock.endAddr at hpost; omega
          have hX : (b.endAddr - ((fs : Int) + ps) + 1).toNat
              = b.start + b.size - (fs + ps) := by
            unfold MemoryBlock.endAddr; omega
          rw [if_pos hpre, if_pos hpost, hX]
          simp only [List.cons_append, List.singleton_append, List.nil_append]
          refine ⟨?_, ?_, ?_⟩
          · rw [tilesB_cons_iff, tilesB_cons_iff, tilesB_cons_iff]
            refine ⟨hs1, ?_, ?_, ?_⟩
            · show fs = o + (fs - b.start)
              omega
            · show fs + ps = o + (fs - b.start) + ps
              omega
            · show tilesB (o + (fs - b.start) + ps + (b.start + b.size - (fs + ps)))
                bs m = true
              have heq : o + (fs - b.start) + ps + (b.start + b.size - (fs + ps))
                  = o + b.size := by omega
              rw [heq]
              exact h1
          · rw [all_positive_cons_iff, all_positive_cons_iff, all_positive_cons_iff]
            refine ⟨?_, hps, ?_, h2⟩
            · show 0 < fs - b.start
              omega
            · show 0 < b.start + b.size - (fs + ps)
              omega
          · refine noadj_cons_iff.mpr ⟨halloc_cons _ (hnoadj_bs_after _ rfl),
              fun y hy hcc => ?_⟩
            rw [List.head?_cons] at hy
            injection hy with hy
            rw [← hy] at hcc
            cases hcc.2
        · have hpost' : fs + ps = b.start + b.size := by
            unfold MemoryBlock.endAddr at hpost
            omega
          rw [if_pos hpre, if_neg hpost]
          simp only [List.cons_append, List.singleton_append, List.nil_append,
            List.append_nil]
          refine ⟨?_, ?_, ?_⟩
          · rw [tilesB_cons_iff, tilesB_cons_iff]
            refine ⟨hs1, ?_, ?_⟩
            · show fs = o + (fs - b.start)
              omega
            · show tilesB (o + (fs - b.start) + ps) bs m = true
              have heq : o + (fs - b.start) + ps = o + b.size := by omega
              rw [heq]
              exact h1
          · rw [all_positive_cons_iff, all_positive_cons_iff]
            refine ⟨?_, hps, h2⟩
            show 0 < fs - b.start
            omega
          · refine noadj_cons_iff.mpr ⟨halloc_cons _ h3, fun y hy hcc => ?_⟩
            rw [List.head?_cons] at hy
            injection hy with hy
            rw [← hy] at hcc
            cases hcc.2
      · have hpre' : b.start = fs := by omega
        by_cases hpost : ((fs : Int) + ps - 1) < b.endAddr
        · have hpost' : fs + ps < b.start + b.size := by
            unfold MemoryBlock.endAddr at hpost; omega
          have hX : (b.endAddr - ((fs : Int) + ps) + 1).toNat
              = b.start + b.size - (fs + ps) := by
            unfold MemoryBlock.endAddr; omega
          rw [if_neg hpre, if_pos hpost, hX]
          simp only [List.cons_append, List.singleton_append, List.nil_append]
          refine ⟨?_, ?_, ?_⟩
          · rw [tilesB_cons_iff, tilesB_cons_iff]
            refine ⟨?_, ?_, ?_⟩
            · show fs = o
              omega
            · show fs + ps = o + ps
              omega
            · show tilesB (o + ps + (b.start + b.size - (fs + ps))) bs m = true
              have heq : o + ps + (b.start + b.size - (fs + ps)) = o + b.size := by
                omega
              rw [heq]
              exact h1
          · rw [all_positive_cons_iff, all_positive_cons_iff]
            refine ⟨hps, ?_, h2⟩
            show 0 < b.start + b.size - (fs + ps)
            omega
          · exact halloc_cons _ (hnoadj_bs_after _ rfl)
        · have hpost' : fs + ps = b.start + b.size := by
            unfold MemoryBlock.endAddr at hpost
            omega
          rw [if_neg hpre, if_neg hpost]
          simp only [List.nil_append, List.cons_append, List.append_nil]
          refine ⟨?_, ?_, ?_⟩
          · rw [tilesB_cons_iff]
            refine ⟨?_, ?_⟩
            · show fs = o
              omega
            · show tilesB (o + ps) bs m = true
              have heq : o + ps = o + b.size := by omega
              rw [heq]
              exact h1
          · rw [all_positive_cons_iff]
            exact ⟨hps, h2⟩
          · exact halloc_cons _ h3
    · rw [show place_page fs ps pid (b :: bs) = b :: place_page fs ps pid bs
        from by simp only [place_page]; rw [if_neg hcond]]
      obtain ⟨ht, hpos, hna⟩ := ih (o + b.size) m h1 h2 h3
      refine ⟨tilesB_cons_iff.mpr ⟨hs1, ht⟩, all_positive_cons_iff.mpr ⟨hp1, hpos⟩,
        noadj_cons_iff.mpr ⟨hna, ?_⟩⟩
      intro y hy hcc
      cases bs with
      | nil => cases hy
      | cons c cs =>
        have hcfree := place_page_head_free c cs y hy hcc.2
        exact hhead c rfl ⟨hcc.1, hcfree⟩

theorem seg_place_head {pid size : Nat} (c : MemoryBlock) (cs : List MemoryBlock) :
    ∀ sg l', seg_place pid size (c :: cs) = some (sg, l') →
      ∀ y, l'.head? = some y → y.is_free = true → c.is_free = true := by
  intro sg l' hsp y hy hf
  by_cases hcond : c.is_free = true ∧ size ≤ c.size
  · exact hcond.1
  · rw [show seg_place pid size (c :: cs)
        = (seg_place pid size cs).map (fun r => (r.1, c :: r.2))
      from by simp only [seg_place]; rw [if_neg hcond]] at hsp
    obtain ⟨⟨sg', l''⟩, _, heq⟩ := Option.map_eq_some'.mp hsp
    rw [(by injection heq with _ h2; exact h2.symm : l' = c :: l'')] at hy
    rw [List.head?_cons] at hy
    injection hy with hy
    rw [← hy] at hf
    exact hf

theorem seg_place_inv (pid size : Nat) (hsz : 0 < size) :
    ∀ (l : List MemoryBlock) (o m : Nat) (sg : MemoryBlock) (l' : List MemoryBlock),
      tilesB o l m = true → all_positive l = true → no_adjacent_free l = true →
      seg_place pid size l = some (sg, l') →
      tilesB o l' m = true ∧ all_positive l' = true ∧ no_adjacent_free l' = true := by
  intro l
  induction l with
  | nil => intro o m sg l' _ _ _ hsp; cases hsp
  | cons b bs ih =>
    intro o m sg l' h1 h2 h3 hsp
    rw [tilesB_cons_iff] at h1
    obtain ⟨hs1, h1⟩ := h1
    rw [all_positive_cons_iff] at h2
    obtain ⟨hp1, h2⟩ := h2
    rw [noadj_cons_iff] at h3
    obtain ⟨h3, hhead⟩ := h3
    by_cases hcond : b.is_free = true ∧ size ≤ b.size
    · have hbs_head : ∀ y, bs.head? = some y → y.is_free = false := by
        intro y hy
        have hny := hhead y hy
        cases hyf : y.is_free with
        | false => rfl
        | true => exact absurd ⟨hcond.1, hyf⟩ hny
      by_cases hlt : size < b.size
      · have hl' : l' = (⟨b.start, size, some pid⟩ : MemoryBlock)
            :: (⟨b.start + size, b.size - size, none⟩ : MemoryBlock) :: bs := by
          rw [show seg_place pid size (b :: bs)
              = some (⟨b.start, size, some pid⟩,
                  (⟨b.start, size, some pid⟩ : MemoryBlock)
                  :: (⟨b.start + size, b.size - size, none⟩ : MemoryBlock) :: bs)
            from by simp only [seg_place]; rw [if_pos hcond, if_pos hlt]] at hsp
          injection hsp with hsp
          exact (congrArg Prod.snd hsp).symm
        subst hl'
        refine ⟨?_, ?_, ?_⟩
        · rw [tilesB_cons_iff, tilesB_cons_iff]
          refine ⟨hs1, ?_, ?_⟩
          · show b.start + size = o + size
            omega
          · show tilesB (o + size + (b.size - size)) bs m = true
            have heq : o + size + (b.size - size) = o + b.size := by omega
            rw [heq]
            exact h1
        · rw [all_positive_cons_iff, all_positive_cons_iff]
          refine ⟨hsz, ?_, h2⟩
          show 0 < b.size - size
          omega
        · refine noadj_cons_iff.mpr ⟨noadj_cons_iff.mpr ⟨h3, fun y hy hcc => ?_⟩,
            fun y hy hcc => ?_⟩
          · rw [hbs_head y hy] at hcc
            cases hcc.2
          · rw [List.head?_cons] at hy
            injection hy with hy
            rw [← hy] at hcc
            cases hcc.1
      · have hl' : l' = (⟨b.start, size, some pid⟩ : MemoryBlock) :: bs := by
          rw [show seg_place pid size (b :: bs)
              = some (⟨b.start, size, some pid⟩,
                  (⟨b.start, size, some pid⟩ : MemoryBlock) :: bs)
            from by simp only [seg_place]; rw [if_pos hcond, if_neg hlt]] at hsp
          injection hsp with hsp
          exact (congrArg Prod.snd hsp).symm
        subst hl'
        have hbsize : size = b.size := by omega
        refine ⟨?_, ?_, ?_⟩
        · rw [tilesB_cons_iff]
          refine ⟨hs1, ?_⟩
          show tilesB (o + size) bs m = true
          rw [hbsize]
          exact h1
        · rw [all_positive_cons_iff]
          exact ⟨hsz, h2⟩
        · refine noadj_cons_iff.mpr ⟨h3, fun y hy hcc => ?_⟩
          cases hcc.1
    · rw [show seg_place pid size (b :: bs)
          = (seg_place pid size bs).map (fun r => (r.1, b :: r.2))
        from by simp only [seg_place]; rw [if_neg hcond]] at hsp
      obtain ⟨⟨sg', l''⟩, hsp', heq⟩ := Option.map_eq_some'.mp hsp
      have hl' : l' = b :: l'' := by injection heq with _ h2; exact h2.symm
      subst hl'
      obtain ⟨ht, hpos, hna⟩ := ih (o + b.size) m sg' l'' h1 h2 h3 hsp'
      refine ⟨tilesB_cons_iff.mpr ⟨hs1, ht⟩, all_positive_cons_iff.mpr ⟨hp1, hpos⟩,
        noadj_cons_iff.mpr ⟨hna, ?_⟩⟩
      intro y hy hcc
      cases bs with
      | nil => cases hsp'
      | cons c cs =>
        have hcfree := seg_place_head c cs sg' l'' hsp' y hy hcc.2
        exact hhead c rfl ⟨hcc.1, hcfree⟩

theorem assign_frames_blocks_inv (ps pid : Nat) (hps : 0 < ps) :
    ∀ (fs : List Nat) (i : Nat) (t : List (Option Nat)) (bl : List MemoryBlock) (m : Nat),
      tilesB 0 bl m = true → all_positive bl = true → no_adjacent_free bl = true →
      tilesB 0 (assign_frames ps pid fs i t bl).2.2 m = true ∧
      all_positive (assign_frames ps pid fs i t bl).2.2 = true ∧
      no_adjacent_free (assign_frames ps pid fs i t bl).2.2 = true := by
  intro fs
  induction fs with
  | nil => intro i t bl m h1 h2 h3; exact ⟨h1, h2, h3⟩
  | cons f fs' ih =>
    intro i t bl m h1 h2 h3
    obtain ⟨ht, hpos, hna⟩ := place_page_inv ps pid hps (f * ps) bl 0 m h1 h2 h3
    exact ih (i + 1) (t.set f (some pid)) (place_page (f * ps) ps pid bl) m ht hpos hna

theorem foldl_free_first_tiles_pos (pid : Nat) :
    ∀ (sgs : List MemoryBlock) (bl : List MemoryBlock) (o m : Nat),
      tilesB o bl m = true → all_positive bl = true →
      tilesB o (sgs.foldl (fun acc sg => free_first_match pid sg.start acc) bl) m = true ∧
      all_positive (sgs.foldl (fun acc sg => free_first_match pid sg.start acc) bl)
        = true := by
  intro sgs
  induction sgs with
  | nil => intro bl o m h1 h2; exact ⟨h1, h2⟩
  | cons sg sgs' ih =>
    intro bl o m h1 h2
    obtain ⟨ht, hpos⟩ := free_first_match_tiles_pos pid sg.start bl o m h1 h2
    exact ih (free_first_match pid sg.start bl) o m ht hpos

theorem step_fields (s : MemoryManager) (c : Cmd) :
    (step s c).total_memory_size = s.total_memory_size ∧
    (step s c).page_size = s.page_size := by
  cases c with
  | dealloc pid =>
    unfold step deallocate_process
    cases hl : plookup s.processes pid with
    | none => simp [hl, log_event]
    | some p =>
      cases hpg : p.pages <;> cases hsg : p.segments <;>
        simp [hl, hpg, hsg, deallocate_paging, deallocate_segmentation, log_event]
  | alloc pid sz m =>
    rw [show step s (Cmd.alloc pid sz m) = (allocate_process s pid sz m).2 from rfl]
    unfold allocate_process
    by_cases hl : (plookup s.processes pid).isSome = true
    · simp [hl, log_event]
    · rw [if_neg hl]
      dsimp only
      cases m with
      | paging =>
        unfold allocate_paging
        by_cases hc : (free_frames s.page_table).length
            < (sz + s.page_size - 1) / s.page_size <;>
          simp [hc, log_event]
      | segmentation =>
        unfold allocate_segmentation
        cases hsp : seg_place pid sz s.memory_blocks with
        | none =>
          simp only [hsp]
          by_cases hfree : 0 < total_free_size s.memory_blocks <;>
            simp [log_event, calculate_external_fragmentation, hfree]
        | some r => simp [hsp, log_event]

theorem range_invariant_iff {total : Nat} {bs : List MemoryBlock} :
    range_invariant total bs = true ↔
      tilesB 0 bs total = true ∧ all_positive bs = true ∧
        no_adjacent_free bs = true := by
  simp [range_invariant, Bool.and_eq_true, and_assoc]

theorem step_preserves_range_invariant (s : MemoryManager) (c : Cmd)
    (hps : 0 < s.page_size) (hsz : c.pos_size = true)
    (hinv : range_invariant s.total_memory_size s.memory_blocks = true) :
    range_invariant s.total_memory_size (step s c).memory_blocks = true := by
  obtain ⟨h1, h2, h3⟩ := range_invariant_iff.mp hinv
  cases c with
  | dealloc pid =>
    unfold step deallocate_process
    cases hl : plookup s.processes pid with
    | none => simpa [hl, log_event] using hinv
    | some p =>
      cases hpg : p.pages with
      | cons pg0 pgrest =>
        obtain ⟨ht, hpos⟩ := map_free_tiles_pos p.process_id s.memory_blocks 0
          s.total_memory_size h1 h2
        obtain ⟨hmt, hmp⟩ := merge_go_tiles_pos _ _ 0 s.total_memory_size ht hpos
        have hmn := merge_go_no_adjacent ((s.memory_blocks.map (fun b =>
          if b.process_id = some p.process_id
          then (⟨b.start, b.size, none⟩ : MemoryBlock) else b)).length) _ (le_refl _)
        simp only [hl, hpg, deallocate_paging, log_event, merge_adjacent_free_blocks]
        rw [range_invariant_iff]
        exact ⟨hmt, hmp, hmn⟩
      | nil =>
        cases hsg : p.segments with
        | nil => simpa [hl, hpg, hsg, log_event] using hinv
        | cons sg rest =>
          obtain ⟨ht, hpos⟩ := foldl_free_first_tiles_pos p.process_id p.segments
            s.memory_blocks 0 s.total_memory_size h1 h2
          obtain ⟨hmt, hmp⟩ := merge_go_tiles_pos _ _ 0 s.total_memory_size ht hpos
          have hmn := merge_go_no_adjacent ((p.segments.foldl (fun acc sg2 =>
            free_first_match p.process_id sg2.start acc) s.memory_blocks).length) _
            (le_refl _)
          simp only [hl, hpg, hsg, deallocate_segmentation, log_event,
            merge_adjacent_free_blocks]
          rw [range_invariant_iff]
          rw [← hsg]
          exact ⟨hmt, hmp, hmn⟩
  | alloc pid sz m =>
    have hszpos : 0 < sz := by simpa [Cmd.pos_size] using hsz
    rw [show step s (Cmd.alloc pid sz m) = (allocate_process s pid sz m).2 from rfl]
    unfold allocate_process
    by_cases hl : (plookup s.processes pid).isSome = true
    · simpa [hl, log_event] using hinv
    · rw [if_neg hl]
      dsimp only
      cases m with
      | paging =>
        unfold allocate_paging
        by_cases hc : (free_frames s.page_table).length
            < (sz + s.page_size - 1) / s.page_size
        · simpa [hc, log_event] using hinv
        · obtain ⟨ht, hpos, hna⟩ := assign_frames_blocks_inv s.page_size pid hps
            ((free_frames s.page_table).take ((sz + s.page_size - 1) / s.page_size)) 0
            s.page_table s.memory_blocks s.total_memory_size h1 h2 h3
          simp only [hc, if_neg, if_false, log_event]
          rw [range_invariant_iff]
          exact ⟨ht, hpos, hna⟩
      | segmentation =>
        unfold allocate_segmentation
        cases hsp : seg_place pid sz s.memory_blocks with
        | none =>
          simp only [hsp]
          by_cases hfree : 0 < total_free_size s.memory_blocks <;>
            simpa [log_event, calculate_external_fragmentation, hfree] using hinv
        | some r =>
          obtain ⟨ht, hpos, hna⟩ := seg_place_inv pid sz hszpos s.memory_blocks 0
            s.total_memory_size r.1 r.2 h1 h2 h3 hsp
          simp only [hsp, log_event]
          rw [range_invariant_iff]
          exact ⟨ht, hpos, hna⟩

/-- C2 (counterexample): a zero-size segmentation allocation inserts a
zero-length owned range, violating the positive-length part of the
invariant the claim states for all call sequences. -/
theorem C2_counterexample :
    range_invariant 8 (run (MemoryManager.init 8 4)
      [Cmd.alloc 1 0 .segmentation]).memory_blocks = false := by
  decide

/-- C2 (amended): for every call sequence in which each allocation
requests a positive size, on a validly configured engine, the block list
after every call is an ordered sequence of positive-length ranges that
tiles exactly `[0, total_memory_size)` with no two adjacent free
ranges. -/
theorem C2_range_invariant (total ps : Nat) (cmds : List Cmd)
    (hps : 0 < ps) (htot : 0 < total) (_hdvd : total % ps = 0)
    (hsz : ∀ c ∈ cmds, c.pos_size = true) :
    range_invariant total (run (MemoryManager.init total ps) cmds).memory_blocks
      = true := by
  suffices haux : ∀ (cs : List Cmd) (s : MemoryManager),
      s.page_size = ps → s.total_memory_size = total →
      (∀ c ∈ cs, c.pos_size = true) →
      range_invariant total s.memory_blocks = true →
      range_invariant total (run s cs).memory_blocks = true by
    refine haux cmds (MemoryManager.init total ps) rfl rfl hsz ?_
    rw [range_invariant_iff]
    refine ⟨?_, ?_, ?_⟩
    · simp [tilesB]
    · exact all_positive_cons_iff.mpr ⟨htot, rfl⟩
    · rfl
  intro cs
  induction cs with
  | nil => intro s _ _ _ hi; exact hi
  | cons c cs' ih =>
    intro s hp ht hall hi
    have hstep := step_preserves_range_invariant s c (by omega) (hall c (by simp))
      (by rw [ht]; exact hi)
    have hf := step_fields s c
    exact ih (step s c) (by rw [hf.2, hp]) (by rw [hf.1, ht])
      (fun d hd => hall d (by simp [hd]))
      (by rw [← ht]; exact hstep)

/-- C2 (witness): the invariant holds along a mixed
allocate/deallocate history with positive sizes. -/
theorem C2_witness :
    range_invariant 16 (run (MemoryManager.init 16 4)
      [Cmd.alloc 1 6 .paging, Cmd.alloc 2 5 .segmentation, Cmd.dealloc 1,
       Cmd.alloc 3 4 .segmentation]).memory_blocks = true :=
  C2_range_invariant 16 4
    [Cmd.alloc 1 6 .paging, Cmd.alloc 2 5 .segmentation, Cmd.dealloc 1,
     Cmd.alloc 3 4 .segmentation]
    (by decide) (by decide) (by decide) (by decide)

/-- C6 (witness): on a mixed paging/segmentation state, deallocating an
unknown id fails with an ERROR event, and deallocating the paging
process succeeds. -/
theorem C6_witness :
    deallocate_process (run (MemoryManager.init 16 4)
        [Cmd.alloc 1 6 .paging, Cmd.alloc 2 4 .segmentation]) 9
      = (false, log_event (run (MemoryManager.init 16 4)
          [Cmd.alloc 1 6 .paging, Cmd.alloc 2 4 .segmentation]) "ERROR" 9) ∧
    (deallocate_process (run (MemoryManager.init 16 4)
        [Cmd.alloc 1 6 .paging, Cmd.alloc 2 4 .segmentation]) 1).1 = true :=
  ⟨(C6_deallocate (run (MemoryManager.init 16 4)
      [Cmd.alloc 1 6 .paging, Cmd.alloc 2 4 .segmentation]) 9 (by decide)).1 (by decide),
   ((C6_deallocate (run (MemoryManager.init 16 4)
      [Cmd.alloc 1 6 .paging, Cmd.alloc 2 4 .segmentation]) 1 (by decide)).2
      ⟨1, 6, [⟨0, some 0⟩, ⟨1, some 1⟩], []⟩ (by decide)).1⟩

theorem owner_at_cons (b : MemoryBlock) (bs : List MemoryBlock) (a : Nat) :
    owner_at (b :: bs) a
      = if b.start ≤ a ∧ a < b.start + b.size then some b.process_id
        else owner_at bs a := rfl

theorem getD_eq_get? (t : List (Option Nat)) (g : Nat) :
    t.getD g none = (t.get? g).getD none := rfl

theorem getD_set_ne (t : List (Option Nat)) (f g : Nat) (v : Option Nat) (h : ¬ f = g) :
    (t.set f v).getD g none = t.getD g none := by
  rw [getD_eq_get?, getD_eq_get?, get?_set', if_neg (fun hc => h hc.1)]

theorem getD_set_self (t : List (Option Nat)) (f : Nat) (v : Option Nat) (h : f < t.length) :
    (t.set f v).getD f none = v := by
  rw [getD_eq_get?, get?_set', if_pos ⟨rfl, h⟩]
  rfl

theorem getD_replicate_none (n g : Nat) :
    (List.replicate n (none : Option Nat)).getD g none = none := by
  rw [getD_eq_get?]
  cases hg : (List.replicate n (none : Option Nat)).get? g with
  | none => rfl
  | some o =>
    have hmem := List.get?_mem hg
    rw [List.eq_of_mem_replicate hmem]
    rfl

theorem span_disjoint {ps f g a : Nat} (hne : ¬ f = g)
    (h1 : g * ps ≤ a) (h2 : a < (g + 1) * ps) : ¬ (f * ps ≤ a ∧ a < f * ps + ps) := by
  rintro ⟨h3, h4⟩
  have hf1 : (f + 1) * ps = f * ps + ps := Nat.succ_mul f ps
  have hg1 : (g + 1) * ps = g * ps + ps := Nat.succ_mul g ps
  rcases Nat.lt_or_ge f g with h | h
  · have hmul : (f + 1) * ps ≤ g * ps := Nat.mul_le_mul_right ps h
    omega
  · have hgf : g + 1 ≤ f := by omega
    have hmul : (g + 1) * ps ≤ f * ps := Nat.mul_le_mul_right ps hgf
    omega

theorem plookup_isSome_of_mem {l : List (Nat × Process)} {e : Nat × Process}
    (h : e ∈ l) : (plookup l e.1).isSome = true := by
  induction l with
  | nil => cases h
  | cons x xs ih =>
    rcases List.mem_cons.mp h with rfl | h'
    · simp [plookup]
    · unfold plookup
      by_cases hx : x.1 = e.1
      · simp [hx]
      · simpa [hx] using ih h'

theorem plookup_append_isSome {l : List (Nat × Process)} {q : Nat}
    (h : (plookup l q).isSome = true) (l₂ : List (Nat × Process)) :
    (plookup (l ++ l₂) q).isSome = true := by
  induction l with
  | nil => simp [plookup] at h
  | cons x xs ih =>
    rw [List.cons_append]
    unfold plookup at h ⊢
    by_cases hx : x.1 = q
    · simp [hx]
    · rw [if_neg hx] at h ⊢
      exact ih h

theorem mem_erase_process {l : List (Nat × Process)} {pid : Nat} {e : Nat × Process}
    (h : e ∈ erase_process l pid) : e ∈ l ∧ ¬ e.1 = pid := by
  unfold erase_process at h
  have h2 := List.mem_filter.mp h
  exact ⟨h2.1, by simpa using h2.2⟩

theorem clear_frames_length (pgs : List Page) :
    ∀ (t : List (Option Nat)),
      (pgs.foldl (fun t pg => match pg.frame_id with
        | some f => t.set f none
        | none => t) t).length = t.length := by
  induction pgs with
  | nil => intro t; rfl
  | cons pg pgs' ih =>
    intro t
    simp only [List.foldl_cons]
    cases hfr : pg.frame_id with
    | none => simp only [hfr]; exact ih t
    | some f => simp only [hfr]; rw [ih, List.length_set]

theorem assign_frames_table_length (ps pid : Nat) :
    ∀ (fs : List Nat) (i : Nat) (t : List (Option Nat)) (bl : List MemoryBlock),
      (assign_frames ps pid fs i t bl).2.1.length = t.length := by
  intro fs
  induction fs with
  | nil => intro i t bl; rfl
  | cons f fs' ih =>
    intro i t bl
    simp only [assign_frames]
    rw [ih (i + 1) (t.set f (some pid)) (place_page (f * ps) ps pid bl), List.length_set]


theorem owner_at_map_free (pid : Nat) (l : List MemoryBlock) (a : Nat) :
    owner_at (l.map (fun b => if b.process_id = some pid
        then (⟨b.start, b.size, none⟩ : MemoryBlock) else b)) a
      = (owner_at l a).map (fun w => if w = some pid then none else w) := by
  induction l with
  | nil => rfl
  | cons b bs ih =>
    rw [List.map_cons]
    by_cases hbp : b.process_id = some pid
    · rw [if_pos hbp, owner_at_cons, owner_at_cons]
      by_cases hr : b.start ≤ a ∧ a < b.start + b.size
      · rw [if_pos hr, if_pos hr, Option.map_some']
        simp [hbp]
      · rw [if_neg hr, if_neg hr, ih]
    · rw [if_neg hbp, owner_at_cons, owner_at_cons]
      by_cases hr : b.start ≤ a ∧ a < b.start + b.size
      · rw [if_pos hr, if_pos hr, Option.map_some']
        simp [hbp]
      · rw [if_neg hr, if_neg hr, ih]

theorem merge_go_owner : ∀ (n : Nat) (l : List MemoryBlock) (o m a : Nat),
    tilesB o l m = true →
    owner_at (merge_go n l) a = owner_at l a := by
  intro n
  induction n with
  | zero => intro l o m a _; rfl
  | succ n ih =>
    intro l o m a ht
    match l with
    | [] => rfl
    | [b] => rfl
    | b₁ :: b₂ :: bs =>
      rw [tilesB_cons_iff] at ht
      obtain ⟨hb1, ht⟩ := ht
      rw [tilesB_cons_iff] at ht
      obtain ⟨hb2, ht⟩ := ht
      by_cases hff : b₁.is_free = true ∧ b₂.is_free = true
      · rw [show merge_go (n + 1) (b₁ :: b₂ :: bs)
            = merge_go n ((⟨b₁.start, b₁.size + b₂.size, none⟩ : MemoryBlock) :: bs)
          from by simp [merge_go, hff]]
        have hmerged : tilesB o
            ((⟨b₁.start, b₁.size + b₂.size, none⟩ : MemoryBlock) :: bs) m = true := by
          rw [tilesB_cons_iff]
          refine ⟨hb1, ?_⟩
          show tilesB (o + (b₁.size + b₂.size)) bs m = true
          have heq : o + (b₁.size + b₂.size) = o + b₁.size + b₂.size := by omega
          rw [heq]
          exact ht
        rw [ih _ o m a hmerged]
        have h1none : b₁.process_id = none := by
          have hx := hff.1
          unfold MemoryBlock.is_free at hx
          exact Option.isNone_iff_eq_none.mp hx
        have h2none : b₂.process_id = none := by
          have hx := hff.2
          unfold MemoryBlock.is_free at hx
          exact Option.isNone_iff_eq_none.mp hx
        rw [owner_at_cons, owner_at_cons, owner_at_cons]
        by_cases hin : b₁.start ≤ a ∧ a < b₁.start + (b₁.size + b₂.size)
        · rw [if_pos (show (⟨b₁.start, b₁.size + b₂.size, none⟩ : MemoryBlock).start ≤ a
              ∧ a < (⟨b₁.start, b₁.size + b₂.size, none⟩ : MemoryBlock).start
                  + (⟨b₁.start, b₁.size + b₂.size, none⟩ : MemoryBlock).size from hin)]
          by_cases hin1 : b₁.start ≤ a ∧ a < b₁.start + b₁.size
          · rw [if_pos hin1, h1none]
          · rw [if_neg hin1]
            have hin2 : b₂.start ≤ a ∧ a < b₂.start + b₂.size := by
              constructor <;> omega
            rw [if_pos hin2, h2none]
        · rw [if_neg (show ¬((⟨b₁.start, b₁.size + b₂.size, none⟩ : MemoryBlock).start ≤ a
              ∧ a < (⟨b₁.start, b₁.size + b₂.size, none⟩ : MemoryBlock).start
                  + (⟨b₁.start, b₁.size + b₂.size, none⟩ : MemoryBlock).size) from hin)]
          have hn1 : ¬(b₁.start ≤ a ∧ a < b₁.start + b₁.size) := by omega
          have hn2 : ¬(b₂.start ≤ a ∧ a < b₂.start + b₂.size) := by omega
          rw [if_neg hn1, if_neg hn2]
      · rw [show merge_go (n + 1) (b₁ :: b₂ :: bs) = b₁ :: merge_go n (b₂ :: bs)
          from by simp [merge_go, hff]]
        rw [owner_at_cons, owner_at_cons]
        by_cases hin1 : b₁.start ≤ a ∧ a < b₁.start + b₁.size
        · rw [if_pos hin1, if_pos hin1]
        · rw [if_neg hin1, if_neg hin1]
          exact ih (b₂ :: bs) (o + b₁.size) m a (tilesB_cons_iff.mpr ⟨hb2, ht⟩)

theorem place_page_owner (ps pid : Nat) (hps : 0 < ps) (fs : Nat) :
    ∀ (l : List MemoryBlock) (o m : Nat),
      tilesB o l m = true → all_positive l = true → no_adjacent_free l = true →
      (∀ a, fs ≤ a → a < fs + ps → owner_at l a = some none) →
      o ≤ fs → fs + ps ≤ m →
      ∀ a, owner_at (place_page fs ps pid l) a
        = if fs ≤ a ∧ a < fs + ps then some (some pid) else owner_at l a := by
  intro l
  induction l with
  | nil =>
    intro o m h1 _ _ _ ho hm a
    exfalso
    have hom : o = m := by simpa [tilesB] using h1
    omega
  | cons b bs ih =>
    intro o m h1 h2 h3 hfree ho hm a
    rw [tilesB_cons_iff] at h1
    obtain ⟨hs1, h1⟩ := h1
    rw [all_positive_cons_iff] at h2
    obtain ⟨hp1, h2⟩ := h2
    rw [noadj_cons_iff] at h3
    obtain ⟨h3, hhead⟩ := h3
    by_cases hcond : b.is_free = true ∧ b.start ≤ fs ∧ ((fs : Int) + ps - 1) ≤ b.endAddr
    · have hble : b.start ≤ fs := hcond.2.1
      have hc3 : fs + ps ≤ b.start + b.size := by
        have hx := hcond.2.2
        unfold MemoryBlock.endAddr at hx
        omega
      have hbnone : b.process_id = none := by
        have hx := hcond.1
        unfold MemoryBlock.is_free at hx
        exact Option.isNone_iff_eq_none.mp hx
      rw [show place_page fs ps pid (b :: bs) = split_block_for_page b fs ps pid ++ bs
        from by simp [place_page, hcond]]
      unfold split_block_for_page
      by_cases hpre : b.start < fs
      · by_cases hpost : ((fs : Int) + ps - 1) < b.endAddr
        · have hpost' : fs + ps < b.start + b.size := by
            unfold MemoryBlock.endAddr at hpost; omega
          have hX : (b.endAddr - ((fs : Int) + ps) + 1).toNat
              = b.start + b.size - (fs + ps) := by
            unfold MemoryBlock.endAddr; omega
          rw [if_pos hpre, if_pos hpost, hX]
          simp only [List.cons_append, List.singleton_append, List.nil_append,
            owner_at, hbnone]
          split_ifs <;> first | rfl | (exfalso; omega)
        · have hpost' : fs + ps = b.start + b.size := by
            unfold MemoryBlock.endAddr at hpost
            omega
          rw [if_pos hpre, if_neg hpost]
          simp only [List.cons_append, List.singleton_append, List.nil_append,
            List.append_nil, owner_at, hbnone]
          split_ifs <;> first | rfl | (exfalso; omega)
      · have hpre' : b.start = fs := by omega
        by_cases hpost : ((fs : Int) + ps - 1) < b.endAddr
        · have hpost' : fs + ps < b.start + b.size := by
            unfold MemoryBlock.endAddr at hpost; omega
          have hX : (b.endAddr - ((fs : Int) + ps) + 1).toNat
              = b.start + b.size - (fs + ps) := by
            unfold MemoryBlock.endAddr; omega
          rw [if_neg hpre, if_pos hpost, hX]
          simp only [List.cons_append, List.singleton_append, List.nil_append,
            owner_at, hbnone]
          split_ifs <;> first | rfl | (exfalso; omega)
        · have hpost' : fs + ps = b.start + b.size := by
            unfold MemoryBlock.endAddr at hpost
            omega
          rw [if_neg hpre, if_neg hpost]
          simp only [List.nil_append, List.cons_append, List.append_nil,
            owner_at, hbnone]
          split_ifs <;> first | rfl | (exfalso; omega)
    · rw [show place_page fs ps pid (b :: bs) = b :: place_page fs ps pid bs
        from by simp only [place_page]; rw [if_neg hcond]]
      have hbnotin : b.start + b.size ≤ fs := by
        by_contra hlt
        push_neg at hlt
        have hofs : b.start ≤ fs := by omega
        by_cases hbf : b.is_free = true
        · have hcend : ¬ (((fs : Int) + ps - 1) ≤ b.endAddr) := by
            intro hcc
            exact hcond ⟨hbf, hofs, hcc⟩
          have hcend' : b.start + b.size < fs + ps := by
            unfold MemoryBlock.endAddr at hcend
            omega
          have ha' : owner_at (b :: bs) (b.start + b.size) = some none :=
            hfree _ (by omega) (by omega)
          rw [owner_at_cons, if_neg (by omega)] at ha'
          cases bs with
          | nil => simp [owner_at] at ha'
          | cons c cs =>
            rw [tilesB_cons_iff] at h1
            obtain ⟨hcs, _⟩ := h1
            rw [all_positive_cons_iff] at h2
            obtain ⟨hcp, _⟩ := h2
            rw [owner_at_cons, if_pos (by constructor <;> omega)] at ha'
            have hcfree : c.is_free = true := by
              injection ha' with ha'
              unfold MemoryBlock.is_free
              rw [ha']
              rfl
            exact hhead c rfl ⟨hbf, hcfree⟩
        · have ha' : owner_at (b :: bs) fs = some none :=
            hfree fs (le_refl fs) (by omega)
          rw [owner_at_cons, if_pos (by constructor <;> omega)] at ha'
          injection ha' with ha'
          apply hbf
          unfold MemoryBlock.is_free
          rw [ha']
          rfl
      have hfree' : ∀ a', fs ≤ a' → a' < fs + ps → owner_at bs a' = some none := by
        intro a' h1' h2'
        have hx := hfree a' h1' h2'
        rw [owner_at_cons, if_neg (by omega)] at hx
        exact hx
      have hres := ih (o + b.size) m h1 h2 h3 hfree' (by omega) hm a
      rw [owner_at_cons, owner_at_cons, hres]
      by_cases hbr : b.start ≤ a ∧ a < b.start + b.size
      · rw [if_pos hbr, if_neg (show ¬(fs ≤ a ∧ a < fs + ps) by omega), if_pos hbr]
      · rw [if_neg hbr]
        by_cases hsp : fs ≤ a ∧ a < fs + ps
        · rw [if_pos hsp, if_pos hsp]
        · rw [if_neg hsp, if_neg hsp, if_neg hbr]

theorem assign_frames_agree (ps pid : Nat) (hps : 0 < ps) :
    ∀ (fl : List Nat) (i : Nat) (t : List (Option Nat)) (bl : List MemoryBlock) (m : Nat),
      tilesB 0 bl m = true → all_positive bl = true → no_adjacent_free bl = true →
      t.length * ps = m →
      fl.Nodup →
      (∀ f ∈ fl, f < t.length ∧ t.getD f none = none) →
      (∀ g, g < t.length → ∀ a, g * ps ≤ a → a < (g + 1) * ps →
         owner_at bl a = some (t.getD g none)) →
      ∀ g, g < t.length → ∀ a, g * ps ≤ a → a < (g + 1) * ps →
        owner_at (assign_frames ps pid fl i t bl).2.2 a
          = some ((assign_frames ps pid fl i t bl).2.1.getD g none) := by
  intro fl
  induction fl with
  | nil =>
    intro i t bl m h1 h2 h3 hm _ _ hagree g hg a ha1 ha2
    exact hagree g hg a ha1 ha2
  | cons f fl' ih =>
    intro i t bl m h1 h2 h3 hm hnd hfl hagree g hg a ha1 ha2
    obtain ⟨hf, hfD⟩ := hfl f (by simp)
    have hnd' : fl'.Nodup := by
      rw [List.nodup_cons] at hnd
      exact hnd.2
    have hfnotin : f ∉ fl' := by
      rw [List.nodup_cons] at hnd
      exact hnd.1
    have hsucc : (f + 1) * ps = f * ps + ps := Nat.succ_mul f ps
    have hspanfree : ∀ a', f * ps ≤ a' → a' < f * ps + ps →
        owner_at bl a' = some none := by
      intro a' h1' h2'
      have hx := hagree f hf a' h1' (by omega)
      rw [hfD] at hx
      exact hx
    have hbound : f * ps + ps ≤ m := by
      have hle : f + 1 ≤ t.length := hf
      have hmul := Nat.mul_le_mul_right ps hle
      omega
    have howner := place_page_owner ps pid hps (f * ps) bl 0 m h1 h2 h3
      hspanfree (Nat.zero_le _) hbound
    obtain ⟨ht', hp', hn'⟩ := place_page_inv ps pid hps (f * ps) bl 0 m h1 h2 h3
    simp only [assign_frames]
    refine ih (i + 1) (t.set f (some pid)) (place_page (f * ps) ps pid bl) m
      ht' hp' hn' (by rw [List.length_set]; exact hm) hnd' ?_ ?_ g
      (by rw [List.length_set]; exact hg) a ha1 ha2
    · intro f' hf'
      have hne : ¬ f = f' := fun he => hfnotin (he ▸ hf')
      obtain ⟨hf'lt, hf'D⟩ := hfl f' (by simp [hf'])
      exact ⟨by rw [List.length_set]; exact hf'lt,
        by rw [getD_set_ne t f f' _ hne]; exact hf'D⟩
    · intro g' hg' a' ha1' ha2'
      rw [List.length_set] at hg'
      rw [howner a']
      by_cases hgf : g' = f
      · subst hgf
        rw [if_pos ⟨ha1', by omega⟩, getD_set_self t g' (some pid) hf]
      · have hne : ¬ f = g' := fun he => hgf he.symm
        rw [if_neg (span_disjoint hne ha1' ha2'), getD_set_ne t f g' _ hne]
        exact hagree g' hg' a' ha1' ha2'

theorem alloc_paging_inv (s : MemoryManager) (pid sz : Nat)
    (hps : 0 < s.page_size) (hinv : paging_inv s) :
    paging_inv (allocate_process s pid sz AllocationMethod.paging).2 := by
  obtain ⟨hlen, hm, hri, hagree, hproc, hlive⟩ := hinv
  obtain ⟨h1, h2, h3⟩ := range_invariant_iff.mp hri
  by_cases hl : (plookup s.processes pid).isSome = true
  · unfold allocate_process
    rw [if_pos hl]
    exact ⟨hlen, hm, hri, hagree, hproc, hlive⟩
  · have hfresh : plookup s.processes pid = none := by
      cases hpl : plookup s.processes pid with
      | none => rfl
      | some p => rw [hpl] at hl; exact absurd rfl hl
    have hstale : ∀ o ∈ s.page_table, ¬ o = some pid := by
      intro o ho hop
      have hlv := hlive o ho pid hop
      rw [hfresh] at hlv
      cases hlv
    unfold allocate_process
    rw [if_neg hl]
    dsimp only
    unfold allocate_paging
    dsimp only
    by_cases hc : (free_frames s.page_table).length < (sz + s.page_size - 1) / s.page_size
    · rw [if_pos hc]
      unfold paging_inv
      dsimp only [log_event]
      refine ⟨hlen, hm, hri, hagree, ?_, ?_⟩
      · intro e he
        rcases List.mem_append.mp he with hin | hnew
        · exact hproc e hin
        · have he2 : e = (pid, ⟨pid, sz, [], []⟩) := by simpa using hnew
          subst he2
          refine ⟨rfl, rfl, ?_⟩
          intro f hf
          constructor
          · intro hfd
            exfalso
            have hg := get?_eq_some_getD s.page_table f hf
            rw [hfd] at hg
            exact hstale _ (List.get?_mem hg) rfl
          · rintro ⟨pg, hpg, _⟩
            cases hpg
      · intro o hot q hoq
        exact plookup_append_isSome (hlive o hot q hoq) _
    · rw [if_neg hc]
      unfold paging_inv
      dsimp only [log_event]
      rw [set_process_append_fresh hfresh]
      have htk : ∀ f ∈ (free_frames s.page_table).take
          ((sz + s.page_size - 1) / s.page_size), f < s.page_table.length :=
        fun f hf => mem_free_frames_lt_length (List.mem_of_mem_take hf)
      have hflD : ∀ f ∈ (free_frames s.page_table).take
          ((sz + s.page_size - 1) / s.page_size), s.page_table.getD f none = none := by
        intro f hf
        have hmf := mem_free_frames.mp (List.mem_of_mem_take hf)
        rw [getD_eq_get?, hmf]
        rfl
      have hnodup : ((free_frames s.page_table).take
          ((sz + s.page_size - 1) / s.page_size)).Nodup := by
        have hnd : (free_frames s.page_table).Nodup :=
          (free_frames_sorted s.page_table).nodup
        exact hnd.sublist (List.take_sublist _ _)
      have hlenm : s.page_table.length * s.page_size = s.total_memory_size := by
        rw [hlen]; exact hm
      have hagree' := assign_frames_agree s.page_size pid hps
        ((free_frames s.page_table).take ((sz + s.page_size - 1) / s.page_size)) 0
        s.page_table s.memory_blocks s.total_memory_size h1 h2 h3 hlenm hnodup
        (fun f hf => ⟨htk f hf, hflD f hf⟩) hagree
      obtain ⟨ht', hp', hn'⟩ := assign_frames_blocks_inv s.page_size pid hps
        ((free_frames s.page_table).take ((sz + s.page_size - 1) / s.page_size)) 0
        s.page_table s.memory_blocks s.total_memory_size h1 h2 h3
      have htab := assign_frames_table s.page_size pid
        ((free_frames s.page_table).take ((sz + s.page_size - 1) / s.page_size)) 0
        s.page_table s.memory_blocks
      have htlen := assign_frames_table_length s.page_size pid
        ((free_frames s.page_table).take ((sz + s.page_size - 1) / s.page_size)) 0
        s.page_table s.memory_blocks
      have hpgs := assign_frames_pages s.page_size pid
        ((free_frames s.page_table).take ((sz + s.page_size - 1) / s.page_size)) 0
        s.page_table s.memory_blocks
      refine ⟨?_, hm, ?_, ?_, ?_, ?_⟩
      · rw [htlen]
        exact hlen
      · exact range_invariant_iff.mpr ⟨ht', hp', hn'⟩
      · intro g hg a ha1 ha2
        rw [htlen] at hg
        exact hagree' g hg a ha1 ha2
      · intro e he
        rcases List.mem_append.mp he with hin | hnew
        · obtain ⟨hep, hes, hesync⟩ := hproc e hin
          refine ⟨hep, hes, ?_⟩
          intro f hf
          rw [htlen] at hf
          rw [getD_eq_get?, htab f htk]
          by_cases hfin : f ∈ (free_frames s.page_table).take
              ((sz + s.page_size - 1) / s.page_size)
          · rw [if_pos hfin]
            constructor
            · intro hpe
              exfalso
              have hx : some pid = some e.1 := hpe
              injection hx with hx
              have hsome := plookup_isSome_of_mem hin
              rw [← hx, hfresh] at hsome
              cases hsome
            · rintro hex
              exfalso
              have h1' := (hesync f hf).mpr hex
              rw [hflD f hfin] at h1'
              cases h1'
          · rw [if_neg hfin, ← getD_eq_get?]
            exact hesync f hf
        · have he2 : e = (pid, ⟨pid, sz,
              (assign_frames s.page_size pid ((free_frames s.page_table).take
                ((sz + s.page_size - 1) / s.page_size)) 0 s.page_table
                s.memory_blocks).1, []⟩) := by
            simpa using hnew
          subst he2
          refine ⟨rfl, rfl, ?_⟩
          intro f hf
          rw [htlen] at hf
          rw [getD_eq_get?, htab f htk]
          by_cases hfin : f ∈ (free_frames s.page_table).take
              ((sz + s.page_size - 1) / s.page_size)
          · rw [if_pos hfin]
            constructor
            · intro _
              have hmap : some f ∈ ((assign_frames s.page_size pid
                  ((free_frames s.page_table).take
                    ((sz + s.page_size - 1) / s.page_size)) 0 s.page_table
                  s.memory_blocks).1.map (fun pg => pg.frame_id)) := by
                rw [hpgs.1]
                exact List.mem_map.mpr ⟨f, hfin, rfl⟩
              obtain ⟨pg, hpgm, hpgf⟩ := List.mem_map.mp hmap
              exact ⟨pg, hpgm, hpgf⟩
            · intro _
              rfl
          · rw [if_neg hfin]
            constructor
            · intro hpe
              exfalso
              have hgd : s.page_table.getD f none = some pid := by
                rw [getD_eq_get?]
                exact hpe
              have hx := get?_eq_some_getD s.page_table f hf
              rw [hgd] at hx
              exact hstale _ (List.get?_mem hx) rfl
            · rintro ⟨pg, hpgm, hpgf⟩
              exfalso
              have hmap : some f ∈ ((assign_frames s.page_size pid
                  ((free_frames s.page_table).take
                    ((sz + s.page_size - 1) / s.page_size)) 0 s.page_table
                  s.memory_blocks).1.map (fun pg2 => pg2.frame_id)) :=
                List.mem_map.mpr ⟨pg, hpgm, hpgf⟩
              rw [hpgs.1] at hmap
              obtain ⟨f', hf', hff⟩ := List.mem_map.mp hmap
              injection hff with hff
              exact hfin (hff ▸ hf')
      · intro o hot q hoq
        subst hoq
        obtain ⟨g, hgq⟩ := List.mem_iff_get?.mp hot
        rw [htab g htk] at hgq
        by_cases hgin : g ∈ (free_frames s.page_table).take
            ((sz + s.page_size - 1) / s.page_size)
        · rw [if_pos hgin] at hgq
          injection hgq with hgq
          injection hgq with hgq
          rw [← hgq, plookup_append_self hfresh]
          rfl
        · rw [if_neg hgin] at hgq
          exact plookup_append_isSome (hlive _ (List.get?_mem hgq) q rfl) _

theorem dealloc_paging_inv (s : MemoryManager) (pid : Nat)
    (hinv : paging_inv s) : paging_inv (deallocate_process s pid).2 := by
  obtain ⟨hlen, hm, hri, hagree, hproc, hlive⟩ := hinv
  obtain ⟨h1, h2, h3⟩ := range_invariant_iff.mp hri
  unfold deallocate_process
  cases hpl : plookup s.processes pid with
  | none =>
    dsimp only
    exact ⟨hlen, hm, hri, hagree, hproc, hlive⟩
  | some p =>
    dsimp only
    have hpmem : (pid, p) ∈ s.processes := plookup_mem hpl
    obtain ⟨hpid', hpseg', hpsync'⟩ := hproc (pid, p) hpmem
    have hpid2 : p.process_id = pid := hpid'
    have hpseg : p.segments = [] := hpseg'
    have hpsync : ∀ f, f < s.page_table.length →
        (s.page_table.getD f none = some pid ↔
          ∃ pg ∈ p.pages, pg.frame_id = some f) := hpsync'
    cases hpgc : p.pages with
    | nil =>
      rw [hpseg]
      dsimp only
      unfold paging_inv
      dsimp only [log_event]
      refine ⟨hlen, hm, hri, hagree, ?_, ?_⟩
      · intro e he
        exact hproc e (mem_erase_process he).1
      · intro o hot q hoq
        subst hoq
        have hqne : ¬ q = pid := by
          intro hqp
          subst hqp
          obtain ⟨g, hgq⟩ := List.mem_iff_get?.mp hot
          have hglen : g < s.page_table.length := by
            by_contra hge
            rw [List.get?_eq_none.mpr (by omega)] at hgq
            cases hgq
          have hgd : s.page_table.getD g none = some q := by
            rw [getD_eq_get?, hgq]
            rfl
          obtain ⟨pg, hpgm, _⟩ := (hpsync g hglen).mp hgd
          rw [hpgc] at hpgm
          cases hpgm
        rw [plookup_erase_ne s.processes hqne]
        exact hlive _ hot q rfl
    | cons pg0 pgrest =>
      dsimp only
      unfold deallocate_paging merge_adjacent_free_blocks
      unfold paging_inv
      dsimp only [log_event]
      have htg := clear_frames_get? p.pages s.page_table
      have htlen' := clear_frames_length p.pages s.page_table
      have hmapTiles := map_free_tiles_pos p.process_id s.memory_blocks 0
        s.total_memory_size h1 h2
      have howner : ∀ a, owner_at (merge_go ((s.memory_blocks.map
          (fun b => if b.process_id = some p.process_id
            then (⟨b.start, b.size, none⟩ : MemoryBlock) else b)).length)
          (s.memory_blocks.map (fun b => if b.process_id = some p.process_id
            then (⟨b.start, b.size, none⟩ : MemoryBlock) else b))) a
          = (owner_at s.memory_blocks a).map
              (fun w => if w = some p.process_id then none else w) := by
        intro a
        rw [merge_go_owner _ _ 0 s.total_memory_size a hmapTiles.1, owner_at_map_free]
      obtain ⟨hmt, hmp⟩ := merge_go_tiles_pos ((s.memory_blocks.map
        (fun b => if b.process_id = some p.process_id
          then (⟨b.start, b.size, none⟩ : MemoryBlock) else b)).length) _ 0
        s.total_memory_size hmapTiles.1 hmapTiles.2
      have hmn := merge_go_no_adjacent ((s.memory_blocks.map (fun b =>
        if b.process_id = some p.process_id
        then (⟨b.start, b.size, none⟩ : MemoryBlock) else b)).length) _ (le_refl _)
      refine ⟨?_, hm, ?_, ?_, ?_, ?_⟩
      · rw [htlen']
        exact hlen
      · exact range_invariant_iff.mpr ⟨hmt, hmp, hmn⟩
      · intro g hg a ha1 ha2
        rw [htlen'] at hg
        rw [howner a, hagree g hg a ha1 ha2, Option.map_some']
        rw [hpid2]
        conv_rhs => rw [getD_eq_get?, htg g]
        by_cases hfg : s.page_table.getD g none = some pid
        · rw [if_pos hfg, if_pos ⟨(hpsync g hg).mp hfg, hg⟩]
          rfl
        · rw [if_neg hfg, if_neg (fun hcon => hfg ((hpsync g hg).mpr hcon.1))]
          rfl
      · intro e he
        obtain ⟨hin, hne⟩ := mem_erase_process he
        obtain ⟨hep, hes, hesync⟩ := hproc e hin
        refine ⟨hep, hes, ?_⟩
        intro f hf
        rw [htlen'] at hf
        rw [getD_eq_get?, htg f]
        by_cases hfset : (∃ x ∈ p.pages, x.frame_id = some f) ∧ f < s.page_table.length
        · rw [if_pos hfset]
          constructor
          · intro hcon
            exfalso
            have hx : (none : Option Nat) = some e.1 := hcon
            cases hx
          · rintro hex
            exfalso
            have h1' := (hesync f hf).mpr hex
            have h2' := (hpsync f hf).mpr hfset.1
            rw [h1'] at h2'
            injection h2' with h2'
            exact hne h2'
        · rw [if_neg hfset, ← getD_eq_get?]
          exact hesync f hf
      · intro o hot q hoq
        subst hoq
        obtain ⟨g, hgq⟩ := List.mem_iff_get?.mp hot
        rw [htg g] at hgq
        by_cases hset : (∃ x ∈ p.pages, x.frame_id = some g) ∧ g < s.page_table.length
        · rw [if_pos hset] at hgq
          injection hgq with hgq
          cases hgq
        · rw [if_neg hset] at hgq
          have hmemo := List.get?_mem hgq
          have hqne : ¬ q = pid := by
            intro hqp
            subst hqp
            have hglen : g < s.page_table.length := by
              by_contra hge
              rw [List.get?_eq_none.mpr (by omega)] at hgq
              cases hgq
            have hgd : s.page_table.getD g none = some q := by
              rw [getD_eq_get?, hgq]
              rfl
            exact hset ⟨(hpsync g hglen).mp hgd, hglen⟩
          rw [plookup_erase_ne s.processes hqne]
          exact hlive _ hmemo q rfl

theorem step_paging_inv (s : MemoryManager) (c : Cmd)
    (hps : 0 < s.page_size) (honly : c.paging_only = true)
    (hinv : paging_inv s) : paging_inv (step s c) := by
  cases c with
  | alloc pid sz m =>
    have hmp : m = AllocationMethod.paging := by
      cases m
      · rfl
      · simp [Cmd.paging_only] at honly
    subst hmp
    exact alloc_paging_inv s pid sz hps hinv
  | dealloc pid => exact dealloc_paging_inv s pid hinv

theorem run_paging_inv (cs : List Cmd) : ∀ (s : MemoryManager),
    0 < s.page_size → (∀ c ∈ cs, c.paging_only = true) → paging_inv s →
    paging_inv (run s cs) := by
  induction cs with
  | nil => intro s _ _ h; exact h
  | cons c cs' ih =>
    intro s hps hall h
    have h' := step_paging_inv s c hps (hall c (by simp)) h
    have hf := step_fields s c
    exact ih (step s c) (by rw [hf.2]; exact hps) (fun d hd => hall d (by simp [hd])) h'

theorem init_paging_inv (total ps : Nat) (_hps : 0 < ps) (htot : 0 < total)
    (hdvd : total % ps = 0) : paging_inv (MemoryManager.init total ps) := by
  have hmul : total / ps * ps = total := Nat.div_mul_cancel (Nat.dvd_of_mod_eq_zero hdvd)
  unfold paging_inv MemoryManager.init
  dsimp only
  refine ⟨List.length_replicate _ _, hmul, ?_, ?_, ?_, ?_⟩
  · rw [range_invariant_iff]
    refine ⟨?_, ?_, ?_⟩
    · simp [tilesB]
    · exact all_positive_cons_iff.mpr ⟨htot, rfl⟩
    · rfl
  · intro g hg a ha1 ha2
    rw [List.length_replicate] at hg
    rw [getD_replicate_none, owner_at_cons]
    have hgle : (g + 1) * ps ≤ total / ps * ps := Nat.mul_le_mul_right ps hg
    have hcond : (0 : Nat) ≤ a ∧ a < 0 + total := ⟨Nat.zero_le a, by omega⟩
    rw [if_pos hcond]
  · intro e he
    cases he
  · intro o ho q hoq
    have hnone := List.eq_of_mem_replicate ho
    rw [hnone] at hoq
    cases hoq

/-- C3 (counterexample): a segmentation allocation writes an owned range
into the block list but never touches the page table, so the claimed
frame/range agreement fails on the reached state. -/
theorem C3_counterexample :
    ¬ frame_agrees ((allocate_process (MemoryManager.init 8 4) 1 2
        AllocationMethod.segmentation).2) := by
  decide

/-- C3 (amended): along histories that only use the paging strategy, on
a validly configured engine, the page table and the block list stay in
lock-step: every address of frame `f`'s span is covered by a range whose
owner is exactly the frame-table entry of `f` — owned by `p` iff the
table assigns the frame to `p`, free iff the table marks it free. -/
theorem C3_frame_range_agreement (total ps : Nat) (cmds : List Cmd)
    (hps : 0 < ps) (htot : 0 < total) (hdvd : total % ps = 0)
    (honly : ∀ c ∈ cmds, c.paging_only = true) :
    frame_agrees (run (MemoryManager.init total ps) cmds) := by
  obtain ⟨hlen, _, _, hagree, _, _⟩ := run_paging_inv cmds (MemoryManager.init total ps)
    hps honly (init_paging_inv total ps hps htot hdvd)
  intro f hf a ha2 ha1
  exact hagree f (by rw [hlen]; exact hf) a ha1 ha2

/-- C3 (witness): the agreement holds along a paging-only history with
allocations and a deallocation. -/
theorem C3_witness :
    frame_agrees (run (MemoryManager.init 16 4)
      [Cmd.alloc 1 6 .paging, Cmd.alloc 2 4 .paging, Cmd.dealloc 1]) :=
  C3_frame_range_agreement 16 4
    [Cmd.alloc 1 6 .paging, Cmd.alloc 2 4 .paging, Cmd.dealloc 1]
    (by decide) (by decide) (by decide) (by decide)

end MemAlloc
